import Mathlib

/-!
Verification development for the uyghur-utils text-processing library.

Strings are modelled as `List Char`, i.e. as sequences of Unicode scalar
values; this matches the JavaScript source wherever it iterates with
`for (const char of text)` (code points).  Where the source indexes by
UTF-16 code unit (`toArabic`), the two views agree on every observable
output because all multi-character keys are ASCII and lone surrogate
halves are dropped exactly like unmapped astral code points.

JavaScript pieces modelled here:
  * `String.prototype.toLowerCase` is modelled by the per-character simple
    lowercase mapping restricted to ASCII and Latin-1 (the only cased
    letters the library's tables mention); other characters are fixed.
  * `String.normalize("NFC")` / `"NFD"` are modelled partially, restricted
    to the canonical compositions relevant to this library (the Latin
    letters with acute/diaeresis that occur in its tables); elsewhere they
    act as the identity.
  * Regular-expression character classes are modelled by the corresponding
    decidable character predicates; `\s` (and `String.prototype.trim`) use
    the ECMAScript white-space/line-terminator set.
-/

/-- ECMAScript white space and line terminators: the character set matched
by the regular expression `\s` and stripped by `String.prototype.trim`. -/
def isJsWs (c : Char) : Bool :=
  decide (0x9 ≤ c.toNat ∧ c.toNat ≤ 0xD) || decide (c.toNat = 0x20) ||
  decide (c.toNat = 0xA0) || decide (c.toNat = 0x1680) ||
  decide (0x2000 ≤ c.toNat ∧ c.toNat ≤ 0x200A) ||
  decide (c.toNat = 0x2028) || decide (c.toNat = 0x2029) ||
  decide (c.toNat = 0x202F) || decide (c.toNat = 0x205F) ||
  decide (c.toNat = 0x3000) || decide (c.toNat = 0xFEFF)

/-- ASCII digit, the regex class `[0-9]`. -/
def isAsciiDigit (c : Char) : Bool :=
  decide (0x30 ≤ c.toNat ∧ c.toNat ≤ 0x39)

/-- ASCII letter, the regex class `[a-zA-Z]`. -/
def isAsciiAlpha (c : Char) : Bool :=
  decide (0x41 ≤ c.toNat ∧ c.toNat ≤ 0x5A) ||
  decide (0x61 ≤ c.toNat ∧ c.toNat ≤ 0x7A)

/-- ASCII letter or digit, the regex class `[a-zA-Z0-9]`. -/
def isAsciiAlnum (c : Char) : Bool :=
  isAsciiAlpha c || isAsciiDigit c

/-- The fixed pass-through punctuation set of the transliteration engine,
the regex class `[.,!?;:'"()-]` (apostrophe is U+0027, quote U+0022). -/
def isPunctKeep (c : Char) : Bool :=
  ['.', ',', '!', '?', ';', ':', Char.ofNat 0x27, Char.ofNat 0x22,
   '(', ')', '-'].contains c

/-- Model of `String.prototype.toLowerCase`, restricted to the Unicode
simple lowercase mapping on ASCII (`A`-`Z`) and Latin-1 (`À`-`Þ` except
`×`); all other characters are fixed points.  This covers every cased
letter appearing in the library's tables (`Ö`, `Ü`, `É`). -/
def jsToLower (c : Char) : Char :=
  if 0x41 ≤ c.toNat ∧ c.toNat ≤ 0x5A then Char.ofNat (c.toNat + 32)
  else if (0xC0 ≤ c.toNat ∧ c.toNat ≤ 0xDE) ∧ c.toNat ≠ 0xD7 then
    Char.ofNat (c.toNat + 32)
  else c

/-- First-match lookup in an association table; JavaScript object literals
with unique keys behave exactly like this under property access. -/
def tableLookup {α : Type} : List (Char × α) → Char → Option α
  | [], _ => none
  | (k, v) :: rest, c => if c = k then some v else tableLookup rest c

/-- First-match lookup keyed by short strings (used for the Latin-side
table whose keys include the two-letter digraphs). -/
def seqLookup {α : Type} : List (List Char × α) → List Char → Option α
  | [], _ => none
  | (k, v) :: rest, s => if s = k then some v else seqLookup rest s

/-- Concatenation of the images of a list's elements (string building by
appending a possibly-multi-character replacement for each input char). -/
def concatMap {α β : Type} (f : α → List β) : List α → List β
  | [] => []
  | c :: rest => f c ++ concatMap f rest

/-- One step of `replaceAll` for a single-character pattern: every
occurrence of `k` is replaced by the string `v`. -/
def replaceAllChar (k : Char) (v : List Char) (l : List Char) : List Char :=
  concatMap (fun c => if c = k then v else [c]) l

/-- Model of `replace(/\s+/g, r)`: every maximal run of white space is
replaced by the single character `r`. -/
def collapseWsWith (r : Char) : List Char → List Char
  | [] => []
  | [c] => if isJsWs c then [r] else [c]
  | a :: b :: rest =>
    if isJsWs a && isJsWs b then collapseWsWith r (b :: rest)
    else (if isJsWs a then r else a) :: collapseWsWith r (b :: rest)

/-- Model of `replace(/\s+/g, " ")`. -/
def collapseWs : List Char → List Char := collapseWsWith ' '

/-- Model of `replace(/x+/g, "x")` for a single character `x`: collapse
every run of `x` to one occurrence. -/
def collapseCharRuns (x : Char) : List Char → List Char
  | [] => []
  | [c] => [c]
  | a :: b :: rest =>
    if a = x && b = x then collapseCharRuns x (b :: rest)
    else a :: collapseCharRuns x (b :: rest)

/-- Leading-white-space removal (front half of `trim`). -/
def trimFront (l : List Char) : List Char := l.dropWhile isJsWs

/-- Trailing-white-space removal (back half of `trim`). -/
def trimBack (l : List Char) : List Char :=
  (l.reverse.dropWhile isJsWs).reverse

/-- Model of `String.prototype.trim`. -/
def jsTrim (l : List Char) : List Char := trimFront (trimBack l)

/-! ### Alphabet tables (src/constants/alphabet.ts) -/

/-- Uyghur Arabic to Latin (ULY) character mapping: the core 32-letter
alphabet.  Values are the replacement strings (possibly digraphs). -/
def UYGHUR_ARABIC_TO_LATIN : List (Char × List Char) :=
  [('ا', ['a']), ('ە', ['e']), ('ب', ['b']), ('پ', ['p']), ('ت', ['t']),
   ('ج', ['j']), ('چ', ['c', 'h']), ('خ', ['x']), ('د', ['d']), ('ر', ['r']),
   ('ز', ['z']), ('ژ', ['z', 'h']), ('س', ['s']), ('ش', ['s', 'h']),
   ('غ', ['g', 'h']), ('ف', ['f']), ('ق', ['q']), ('ك', ['k']),
   ('ڭ', ['n', 'g']), ('گ', ['g']), ('ل', ['l']), ('م', ['m']), ('ن', ['n']),
   ('ھ', ['h']), ('و', ['o']), ('ۇ', ['u']), ('ۆ', ['ö']), ('ۈ', ['ü']),
   ('ۋ', ['w']), ('ې', ['é']), ('ى', ['i']), ('ي', ['y'])]

/-- Latin (ULY) to Uyghur Arabic mapping; keys are one- or two-character
Latin sequences. -/
def LATIN_TO_UYGHUR_ARABIC : List (List Char × Char) :=
  [(['a'], 'ا'), (['e'], 'ە'), (['b'], 'ب'), (['p'], 'پ'), (['t'], 'ت'),
   (['j'], 'ج'), (['c', 'h'], 'چ'), (['x'], 'خ'), (['d'], 'د'), (['r'], 'ر'),
   (['z'], 'ز'), (['z', 'h'], 'ژ'), (['s'], 'س'), (['s', 'h'], 'ش'),
   (['g', 'h'], 'غ'), (['f'], 'ف'), (['q'], 'ق'), (['k'], 'ك'),
   (['n', 'g'], 'ڭ'), (['g'], 'گ'), (['l'], 'ل'), (['m'], 'م'),
   (['n'], 'ن'), (['h'], 'ھ'), (['o'], 'و'), (['u'], 'ۇ'), (['ö'], 'ۆ'),
   (['ü'], 'ۈ'), (['w'], 'ۋ'), (['é'], 'ې'), (['i'], 'ى'), (['y'], 'ي')]

/-- Hamza and the eight Arabic diacritics (U+064B to U+0652), all mapped
to the empty string (deletion). -/
def UYGHUR_SPECIAL_CHARS : List (Char × List Char) :=
  [('ئ', []), ('ء', []),
   (Char.ofNat 0x64B, []), (Char.ofNat 0x64C, []), (Char.ofNat 0x64D, []),
   (Char.ofNat 0x64E, []), (Char.ofNat 0x64F, []), (Char.ofNat 0x650, []),
   (Char.ofNat 0x651, []), (Char.ofNat 0x652, [])]

/-- Arabic-borrowed letters with their Latin approximations. -/
def ARABIC_BORROWED_CHARS : List (Char × List Char) :=
  [('ع', []), ('ح', ['h']), ('ط', ['t']), ('ص', ['s']), ('ض', ['z']),
   ('ث', ['s']), ('ذ', ['z']), ('ظ', ['z'])]

/-- Arabic-Indic numerals (U+0660 to U+0669) to Western numerals. -/
def ARABIC_INDIC_NUMERALS : List (Char × Char) :=
  [('٠', '0'), ('١', '1'), ('٢', '2'), ('٣', '3'), ('٤', '4'),
   ('٥', '5'), ('٦', '6'), ('٧', '7'), ('٨', '8'), ('٩', '9')]

/-- Western numerals to Arabic-Indic numerals. -/
def WESTERN_TO_ARABIC_INDIC_NUMERALS : List (Char × Char) :=
  [('0', '٠'), ('1', '١'), ('2', '٢'), ('3', '٣'), ('4', '٤'),
   ('5', '٥'), ('6', '٦'), ('7', '٧'), ('8', '٨'), ('9', '٩')]

/-- Extended Arabic-Indic numerals (U+06F0 to U+06F9) to Western. -/
def EXTENDED_ARABIC_INDIC_NUMERALS : List (Char × Char) :=
  [('۰', '0'), ('۱', '1'), ('۲', '2'), ('۳', '3'), ('۴', '4'),
   ('۵', '5'), ('۶', '6'), ('۷', '7'), ('۸', '8'), ('۹', '9')]

/-- Complete Arabic-to-Latin map: the object spread
`{...core, ...special, ...borrowed, ...arabicIndic, ...extended}`.
All five key sets are pairwise disjoint, so the spread (later entries
shadowing earlier ones) is a plain union, modelled by concatenation with
first-match lookup. -/
def COMPLETE_ARABIC_TO_LATIN : List (Char × List Char) :=
  UYGHUR_ARABIC_TO_LATIN ++ UYGHUR_SPECIAL_CHARS ++ ARABIC_BORROWED_CHARS ++
  (ARABIC_INDIC_NUMERALS.map fun kv => (kv.1, [kv.2])) ++
  (EXTENDED_ARABIC_INDIC_NUMERALS.map fun kv => (kv.1, [kv.2]))

/-! ### Script detection (src/detect.ts) -/

/-- The four Unicode block ranges of Arabic script used by the classifier. -/
def ARABIC_SCRIPT_RANGES : List (Nat × Nat) :=
  [(0x600, 0x6FF), (0x750, 0x77F), (0xFB50, 0xFDFF), (0xFE70, 0xFEFF)]

/-- Check whether a character falls in one of the Arabic script ranges. -/
def isArabicScriptChar (c : Char) : Bool :=
  ARABIC_SCRIPT_RANGES.any fun p =>
    decide (p.1 ≤ c.toNat) && decide (c.toNat ≤ p.2)

/-- Check whether text contains any Arabic-script character. -/
def containsArabicScript (l : List Char) : Bool :=
  l.any isArabicScriptChar

/-- The fixed nine-character set of Uyghur-distinguishing letters. -/
def UYGHUR_SPECIFIC_CHARS : List Char :=
  ['ئ', 'ە', 'ۆ', 'ۈ', 'ۋ', 'ې', 'ى', 'ڭ', 'گ']

/-- Check whether text contains Uyghur-specific characters. -/
def containsUyghurChars (l : List Char) : Bool :=
  l.any fun c => UYGHUR_SPECIFIC_CHARS.contains c

/-- Check whether text contains Latin letters (regex `[a-zA-Z]`). -/
def containsLatin (l : List Char) : Bool := l.any isAsciiAlpha

/-- Check whether text contains CJK Unified Ideographs. -/
def containsChinese (l : List Char) : Bool :=
  l.any fun c => decide (0x4E00 ≤ c.toNat ∧ c.toNat ≤ 0x9FFF)

/-- Check whether text contains Cyrillic characters. -/
def containsCyrillic (l : List Char) : Bool :=
  l.any fun c => decide (0x400 ≤ c.toNat ∧ c.toNat ≤ 0x4FF)

/-- Result type of `detectScript`. -/
inductive Script where
  | uyghur | arabic | latin | chinese | cyrillic | mixed | unknown
deriving DecidableEq

/-- Detect the primary script of the text (src/detect.ts, detectScript). -/
def detectScript (l : List Char) : Script :=
  if l.isEmpty || (jsTrim l).isEmpty then .unknown
  else
    let hasArabic := containsArabicScript l
    let hasUyghur := containsUyghurChars l
    let hasLatin := containsLatin l
    let hasChinese := containsChinese l
    let hasCyrillic := containsCyrillic l
    let scriptCount :=
      ([hasArabic, hasLatin, hasChinese, hasCyrillic].filter fun b => b).length
    if scriptCount > 1 then .mixed
    else if hasArabic then (if hasUyghur then .uyghur else .arabic)
    else if hasLatin then .latin
    else if hasChinese then .chinese
    else if hasCyrillic then .cyrillic
    else .unknown

/-! ### Transliteration engine (src/transliterate.ts) -/

/-- Per-character step of `toULY`: complete-map lookup, then white space to
a single space, then ASCII alphanumeric pass-through, then punctuation
pass-through, otherwise drop. -/
def ulyStep (c : Char) : List Char :=
  match tableLookup COMPLETE_ARABIC_TO_LATIN c with
  | some v => v
  | none =>
    if isJsWs c then [' ']
    else if isAsciiAlnum c then [c]
    else if isPunctKeep c then [c]
    else []

/-- Transliterate Uyghur text from Arabic script to Latin (ULY):
per-character mapping, then `replace(/\s+/g, " ").trim()`. -/
def toULY (l : List Char) : List Char :=
  if l.isEmpty then [] else jsTrim (collapseWs (concatMap ulyStep l))

/-- Multi-character Latin sequences, checked before single characters. -/
def MULTI_CHAR_LATIN : List (List Char) :=
  [['c', 'h'], ['z', 'h'], ['s', 'h'], ['g', 'h'], ['n', 'g']]

/-- Digraph match at the current position: the source tries each of the
five protected sequences against the two-character slice and then looks it
up; the five digraphs have pairwise distinct first characters, so the
try-in-order loop is equivalent to this single test. -/
def digraphArabic (c d : Char) : Option Char :=
  if [c, d] ∈ MULTI_CHAR_LATIN then seqLookup LATIN_TO_UYGHUR_ARABIC [c, d]
  else none

/-- Single-character step of `toArabic`: map lookup, then white space to a
space, then digit pass-through, then punctuation pass-through, else drop. -/
def laStep (c : Char) : List Char :=
  match seqLookup LATIN_TO_UYGHUR_ARABIC [c] with
  | some a => [a]
  | none =>
    if isJsWs c then [' ']
    else if isAsciiDigit c then [c]
    else if isPunctKeep c then [c]
    else []

/-- Left-to-right scan of `toArabic`: at each position first try the
digraphs (advancing by two), otherwise handle one character. -/
def scanLatin : List Char → List Char
  | [] => []
  | [c] => laStep c
  | c :: d :: rest =>
    match digraphArabic c d with
    | some a => a :: scanLatin rest
    | none => laStep c ++ scanLatin (d :: rest)

/-- Transliterate Uyghur text from Latin (ULY) to Arabic script: lowercase
the whole input, scan with digraph priority, then `trim()` (no internal
white-space collapsing in this direction). -/
def toArabic (l : List Char) : List Char :=
  if l.isEmpty then [] else jsTrim (scanLatin (l.map jsToLower))

/-- Options accepted by `transliterate`; the implementation never reads
them. -/
structure TransliterateOptions where
  preserveCase : Option Bool := none
  includeUnmapped : Option Bool := none

/-- The inline Arabic-presence test of `transliterate`: the regex
`/[؀-ۿݐ-ݿﭐ-﷿ﹰ-﻿]/.test(text)`. -/
def transliterateHasArabic (l : List Char) : Bool :=
  l.any fun c =>
    decide ((0x600 ≤ c.toNat ∧ c.toNat ≤ 0x6FF) ∨
            (0x750 ≤ c.toNat ∧ c.toNat ≤ 0x77F) ∨
            (0xFB50 ≤ c.toNat ∧ c.toNat ≤ 0xFDFF) ∨
            (0xFE70 ≤ c.toNat ∧ c.toNat ≤ 0xFEFF))

/-- Smart transliteration: dispatch on Arabic-script presence.  The
options argument is accepted but ignored. -/
def transliterate (l : List Char) (o : TransliterateOptions) : List Char :=
  if l.isEmpty then []
  else if transliterateHasArabic l then toULY l
  else toArabic l

/-! ### Normalizer (src/normalize.ts) -/

/-- Canonical composition table of the partial NFC model: base character
plus combining acute (U+0301) or diaeresis (U+0308) for the Latin letters
this library's tables mention. -/
def composePair (a b : Char) : Option Char :=
  if a = 'e' ∧ b = Char.ofNat 0x301 then some 'é'
  else if a = 'E' ∧ b = Char.ofNat 0x301 then some 'É'
  else if a = 'o' ∧ b = Char.ofNat 0x308 then some 'ö'
  else if a = 'O' ∧ b = Char.ofNat 0x308 then some 'Ö'
  else if a = 'u' ∧ b = Char.ofNat 0x308 then some 'ü'
  else if a = 'U' ∧ b = Char.ofNat 0x308 then some 'Ü'
  else none

/-- Accumulating pass of the partial NFC model. -/
def nfcAux : Char → List Char → List Char
  | a, [] => [a]
  | a, b :: rest =>
    match composePair a b with
    | some c => nfcAux c rest
    | none => a :: nfcAux b rest

/-- Partial model of `String.normalize("NFC")`: compose adjacent pairs
from `composePair`, identity elsewhere.  See the header note. -/
def nfc : List Char → List Char
  | [] => []
  | a :: rest => nfcAux a rest

/-- Character-variation table `CHAR_NORMALIZATIONS` of the normalizer:
hamza-carrier forms to hamza plus alef, Arabic kaf/yeh/heh variants to
their Uyghur counterparts, five zero-width marker characters deleted. -/
def CHAR_NORMALIZATIONS : List (Char × List Char) :=
  [('أ', ['ئ', 'ا']), ('إ', ['ئ', 'ا']), ('آ', ['ئ', 'ا']),
   ('ک', ['ك']), ('ی', ['ي']), ('ه', ['ھ']),
   (Char.ofNat 0x200C, []), (Char.ofNat 0x200D, []),
   (Char.ofNat 0x200E, []), (Char.ofNat 0x200F, []),
   (Char.ofNat 0xFEFF, [])]

/-- Applying the normalization table.  The source performs one sequential
`replaceAll` per table entry, in order; since no replacement string
contains any table key, the sequential passes never interact and are
equal to this single simultaneous pass. -/
def applyCharNorms (l : List Char) : List Char :=
  concatMap (fun c => (tableLookup CHAR_NORMALIZATIONS c).getD [c]) l

/-- Normalize Uyghur text: NFC, character-variant substitution, white
space collapsed to single spaces, trim. -/
def normalizeUyghur (l : List Char) : List Char :=
  if l.isEmpty then [] else jsTrim (collapseWs (applyCharNorms (nfc l)))

/-- Arabic combining-diacritic test (U+064B to U+0652). -/
def isArabicDiacritic (c : Char) : Bool :=
  decide (0x64B ≤ c.toNat ∧ c.toNat ≤ 0x652)

/-- Remove Arabic diacritical marks. -/
def removeDiacritics (l : List Char) : List Char :=
  if l.isEmpty then [] else l.filter fun c => !isArabicDiacritic c

/-- The six-character hamza family removed by `removeHamza`. -/
def hamzaFamily : List Char := ['ئ', 'ء', 'أ', 'إ', 'آ', 'ؤ']

/-- Remove all hamza characters. -/
def removeHamza (l : List Char) : List Char :=
  if l.isEmpty then [] else l.filter fun c => !hamzaFamily.contains c

/-- The punctuation class deleted by `normalizeForSearch`
(`[.,!?;:'"()[\]{}<>«»،؛؟]`). -/
def searchPunct : List Char :=
  ['.', ',', '!', '?', ';', ':', Char.ofNat 0x27, Char.ofNat 0x22,
   '(', ')', '[', ']', Char.ofNat 0x7B, Char.ofNat 0x7D, '<', '>',
   '«', '»', '،', '؛', '؟']

/-- Normalize text for search: `normalizeUyghur`, remove diacritics,
remove hamza, lowercase, delete punctuation, collapse white space, trim. -/
def normalizeForSearch (l : List Char) : List Char :=
  if l.isEmpty then []
  else
    jsTrim (collapseWs
      ((((removeHamza (removeDiacritics (normalizeUyghur l))).map
          jsToLower).filter fun c => !searchPunct.contains c)))

/-! ### Numeral converter (src/numbers.ts) -/

/-- Per-character Arabic-Indic / Extended-Arabic-Indic to Western digit
substitution.  The source performs one `replaceAll` per table entry, in
order; the replacement characters (Western digits) are keys of neither
table, so the sequential passes equal this single per-character pass. -/
def awChar (c : Char) : Char :=
  match tableLookup ARABIC_INDIC_NUMERALS c with
  | some w => w
  | none =>
    match tableLookup EXTENDED_ARABIC_INDIC_NUMERALS c with
    | some w => w
    | none => c

/-- Convert Arabic-Indic (and Extended Arabic-Indic) numerals to Western. -/
def toWesternNumerals (l : List Char) : List Char :=
  if l.isEmpty then [] else l.map awChar

/-- Per-character Western to Arabic-Indic digit substitution (same
sequential-`replaceAll` note as `awChar`). -/
def waChar (c : Char) : Char :=
  match tableLookup WESTERN_TO_ARABIC_INDIC_NUMERALS c with
  | some a => a
  | none => c

/-- Convert Western numerals to Arabic-Indic numerals. -/
def toArabicIndicNumerals (l : List Char) : List Char :=
  if l.isEmpty then [] else l.map waChar

/-- Numeric value of a run of ASCII digits. -/
def digitsVal (l : List Char) : Nat :=
  l.foldl (fun a c => 10 * a + (c.toNat - 0x30)) 0

/-- Model of `parseInt(s, 10)`: skip leading white space, read one
optional sign, take the longest run of ASCII digits; an empty run is NaN
(`none`).  The numeric value is modelled exactly (the JavaScript result is
a double and rounds above 2^53; no claim here depends on that rounding). -/
def parseIntTen (l : List Char) : Option Int :=
  match l.dropWhile isJsWs with
  | [] => none
  | c :: rest =>
    if c = '-' then
      (let ds := rest.takeWhile isAsciiDigit
       if ds.isEmpty then none else some (-(digitsVal ds : Int)))
    else if c = '+' then
      (let ds := rest.takeWhile isAsciiDigit
       if ds.isEmpty then none else some ((digitsVal ds : Int)))
    else
      (let ds := (c :: rest).takeWhile isAsciiDigit
       if ds.isEmpty then none else some ((digitsVal ds : Int)))

/-- Parse a number from text: trim, convert to Western numerals, apply
`parseInt` base 10.  `none` models the NaN sentinel. -/
def parseNumber (l : List Char) : Option Int :=
  if l.isEmpty then none else parseIntTen (toWesternNumerals (jsTrim l))

/-! ### Slug builder (src/slug.ts) -/

/-- Options for slug generation.  The separator is modelled as a single
character (the default `-`); separators that are regex metacharacters or
multi-character strings are outside the model. -/
structure SlugOptions where
  maxLength : Nat
  separator : Char
  lowercase : Bool
  trim : Bool

/-- Default slug options. -/
def DEFAULT_OPTIONS : SlugOptions :=
  { maxLength := 100, separator := '-', lowercase := true, trim := true }

/-- Canonical decomposition table of the partial NFD model (inverse of
`composePair`); identity elsewhere.  See the header note. -/
def nfdChar (c : Char) : List Char :=
  if c = 'é' then ['e', Char.ofNat 0x301]
  else if c = 'É' then ['E', Char.ofNat 0x301]
  else if c = 'ö' then ['o', Char.ofNat 0x308]
  else if c = 'Ö' then ['O', Char.ofNat 0x308]
  else if c = 'ü' then ['u', Char.ofNat 0x308]
  else if c = 'Ü' then ['U', Char.ofNat 0x308]
  else [c]

/-- Combining-diacritic test of the slug pipeline (U+0300 to U+036F). -/
def isCombining (c : Char) : Bool :=
  decide (0x300 ≤ c.toNat ∧ c.toNat ≤ 0x36F)

/-- Drop one leading occurrence of `x` (the `^x` half of the trim regex,
which the `g` flag applies at most once at the start). -/
def dropOneLeading (x : Char) : List Char → List Char
  | [] => []
  | c :: rest => if c = x then rest else c :: rest

/-- Drop one trailing occurrence of `x` (the `x$` half of the trim regex). -/
def dropOneTrailing (x : Char) (l : List Char) : List Char :=
  (dropOneLeading x l.reverse).reverse

/-- The slug pipeline of `slugifyLatin` up to (not including) truncation:
NFD, strip combining marks, optional lowercase, white-space runs to the
separator, delete everything that is not ASCII alphanumeric or the
separator (case-insensitively, per the regex `i` flag), collapse separator
runs, optionally trim one leading/trailing separator. -/
def slugPre (text : List Char) (o : SlugOptions) : List Char :=
  let s1 := concatMap nfdChar text
  let s2 := s1.filter fun c => !isCombining c
  let s3 := if o.lowercase then s2.map jsToLower else s2
  let s4 := collapseWsWith o.separator s3
  let s5 := s4.filter fun c =>
    isAsciiAlnum c || (jsToLower c = jsToLower o.separator)
  let s6 := collapseCharRuns o.separator s5
  if o.trim then dropOneTrailing o.separator (dropOneLeading o.separator s6)
  else s6

/-- Index of the last occurrence of `x`, accumulating variant
(`-1` when absent, like `String.prototype.lastIndexOf`). -/
def lastIndexAux (x : Char) : List Char → Int → Int → Int
  | [], _, acc => acc
  | c :: r, i, acc => lastIndexAux x r (i + 1) (if c = x then i else acc)

/-- Model of `lastIndexOf` for a single character. -/
def lastIndexOfChar (x : Char) (l : List Char) : Int :=
  lastIndexAux x l 0 (-1)

/-- Fuelled binary length: the number of bits of `n` (the fuel `n` always
suffices, and the fuelled form reduces inside the kernel). -/
def bitLenAux : Nat → Nat → Nat
  | 0, _ => 0
  | fuel + 1, n => if n = 0 then 0 else bitLenAux fuel (n / 2) + 1

/-- Number of binary digits of `n`. -/
def bitLen (n : Nat) : Nat := bitLenAux n n

/-- Round `n / 2 ^ s` to the nearest integer, ties to even (the IEEE-754
rounding used for every double operation). -/
def roundNearestEven (n s : Nat) : Nat :=
  if s = 0 then n
  else
    let q := n / 2 ^ s
    let r := n % 2 ^ s
    let half := 2 ^ (s - 1)
    if half < r then q + 1
    else if r < half then q
    else if q % 2 = 0 then q else q + 1

/-- The 53-bit significand of the double literal `0.7`: the double closest
to 7/10 is `6305039478318694 * 2 ^ (-53)` (about 0.69999999999999996). -/
def double07Sig : Nat := 6305039478318694

/-- Model of the JavaScript comparison `i > m * 0.7` on doubles: the
product of the exact integer `m` with the double `0.7` is
`m * double07Sig * 2 ^ (-53)` rounded to 53 significant bits with round to
nearest, ties to even; the comparison against the integer `i` is then
exact.  Faithful to IEEE-754 binary64 for `m < 2 ^ 53` (beyond that
`maxLength` itself is not an exact double).  For example the product is
exactly 7 for `m = 10` and exactly 70 for `m = 100`, but
62.99999999999999 for `m = 90`. -/
def jsGtTimes07 (i : Int) (m : Nat) : Bool :=
  let n := m * double07Sig
  let s := bitLen n - 53
  let p := roundNearestEven n s
  decide ((p : Int) * 2 ^ (s - 53) < i * 2 ^ (53 - s))

/-- Truncation step of `slugifyLatin` (lines 68-76): hard cut at
`maxLength`, then cut at the last separator when the double comparison
`lastSeparator > maxLength * 0.7` holds. -/
def truncateStep (sep : Char) (maxLength : Nat) (slug : List Char) :
    List Char :=
  if slug.length > maxLength then
    let t := slug.take maxLength
    let i := lastIndexOfChar sep t
    if jsGtTimes07 i maxLength then t.take i.toNat else t
  else slug

/-- Slugify Latin text: the pipeline followed by truncation. -/
def slugifyLatin (text : List Char) (o : SlugOptions) : List Char :=
  truncateStep o.separator o.maxLength (slugPre text o)

/-- The processed input of `generateSlug`: trim, and romanize first when
the classifier reports Arabic-script presence. -/
def slugInput (text : List Char) : List Char :=
  if containsArabicScript (jsTrim text) then toULY (jsTrim text)
  else jsTrim text

/-- Generate a URL-friendly slug. -/
def generateSlug (text : List Char) (o : SlugOptions) : List Char :=
  if text.isEmpty then [] else slugifyLatin (slugInput text) o

/-- The slug value after filtering/collapsing/trimming but before
truncation, as produced inside `generateSlug`. -/
def preSlug (text : List Char) (o : SlugOptions) : List Char :=
  slugPre (slugInput text) o


/-! ### Spec-side definitions used to state the claims -/

/-- Membership in the 32-letter core map (a key of
`UYGHUR_ARABIC_TO_LATIN`). -/
def isCoreLetter (c : Char) : Bool :=
  (tableLookup UYGHUR_ARABIC_TO_LATIN c).isSome

/-- Latin image of a character drawn from the core-letters-and-space
domain: the core value for a letter, a space for anything else. -/
def ulyOf (c : Char) : List Char :=
  match tableLookup UYGHUR_ARABIC_TO_LATIN c with
  | some v => v
  | none => [' ']

/-- Adjacent core-letter pairs whose Latin images concatenate into one of
the protected digraphs across the letter boundary (z+h, s+h, g+h, n+g,
n+gh).  These are exactly the pairs on which the Latin-side scan re-reads
the boundary as a digraph. -/
def badPair (a b : Char) : Bool :=
  ((a == 'ز' || a == 'س' || a == 'گ') && b == 'ھ') ||
  (a == 'ن' && (b == 'گ' || b == 'غ'))

/-- Whitespace normalization as worded by the claim: collapse runs of
white space to one space and trim the ends. -/
def normWs (l : List Char) : List Char := jsTrim (collapseWs l)

/-- The `detectScript` algorithm as worded by the specification: unknown
on empty/all-white-space input, `mixed` when more than one of the four
top-level presence flags holds, Arabic refined by Uyghur-specific
characters, then the single-flag cases, else unknown. -/
def detectScriptSpec (l : List Char) : Script :=
  if l = [] ∨ l.all isJsWs then .unknown
  else
    let a := containsArabicScript l
    let lat := containsLatin l
    let ch := containsChinese l
    let cy := containsCyrillic l
    let count := (if a then 1 else 0) + (if lat then 1 else 0) +
      (if ch then 1 else 0) + (if cy then 1 else 0)
    if 1 < count then .mixed
    else if a then (if containsUyghurChars l then .uyghur else .arabic)
    else if lat then .latin
    else if ch then .chinese
    else if cy then .cyrillic
    else .unknown

/-- Validity of a base-10 integer literal as worded by claim C6: an
optional single sign followed by a nonempty run of ASCII digits and
nothing else. -/
def isIntegerLiteral (w : List Char) : Bool :=
  match w with
  | '-' :: rest => !rest.isEmpty && rest.all isAsciiDigit
  | '+' :: rest => !rest.isEmpty && rest.all isAsciiDigit
  | _ => !w.isEmpty && w.all isAsciiDigit

/-- The amended description of `parseNumber`: trim, convert to Western
numerals, then read an optional sign followed by the longest leading run
of ASCII digits, ignoring anything after it; when no digit follows the
optional sign the result is the NaN sentinel. -/
def parseNumberSpec (l : List Char) : Option Int :=
  match toWesternNumerals (jsTrim l) with
  | [] => none
  | c :: rest =>
    if c = '-' then
      (let ds := rest.takeWhile isAsciiDigit
       if ds.isEmpty then none else some (-(digitsVal ds : Int)))
    else if c = '+' then
      (let ds := rest.takeWhile isAsciiDigit
       if ds.isEmpty then none else some ((digitsVal ds : Int)))
    else
      (let ds := (c :: rest).takeWhile isAsciiDigit
       if ds.isEmpty then none else some ((digitsVal ds : Int)))

/-- The truncation rule exactly as claim C4 words it: truncate to
`maxLength`, then cut at the last separator occurrence when that
occurrence is AT OR AFTER position `0.7 * maxLength` (the comparison
`10 * i ≥ 7 * maxLength` is the exact form of `i ≥ 0.7 * maxLength`). -/
def specTruncateGE (sep : Char) (maxLength : Nat) (slug : List Char) :
    List Char :=
  if slug.length ≤ maxLength then slug
  else
    let t := slug.take maxLength
    let i := lastIndexOfChar sep t
    if 0 ≤ i ∧ 7 * (maxLength : Int) ≤ 10 * i then t.take i.toNat else t

/-- The amended truncation rule: cut at the last separator only when its
position is STRICTLY GREATER than the IEEE-754 double product
`maxLength * 0.7` (which is exactly `0.7 * maxLength` for maxLength 10 or
100 but rounds just below it for maxLength 90, 170, 180, ...), discarding
the separator. -/
def specTruncateGT (sep : Char) (maxLength : Nat) (slug : List Char) :
    List Char :=
  if slug.length ≤ maxLength then slug
  else
    let t := slug.take maxLength
    let i := lastIndexOfChar sep t
    if 0 ≤ i ∧ jsGtTimes07 i maxLength = true then t.take i.toNat else t

/-- The output alphabet claimed for `toULY`: ASCII letters, ASCII digits,
a single space, the fixed punctuation set, or one of the letters
`ö`, `ü`, `é`. -/
def allowedUlyOutput (c : Char) : Bool :=
  isAsciiAlpha c || isAsciiDigit c || c == ' ' || isPunctKeep c ||
  ['ö', 'ü', 'é'].contains c

/-- Arabic-Indic digit test (U+0660 to U+0669). -/
def isArabicIndicDigit (c : Char) : Bool :=
  decide (0x660 ≤ c.toNat ∧ c.toNat ≤ 0x669)

/-- Extended Arabic-Indic digit test (U+06F0 to U+06F9). -/
def isExtArabicIndicDigit (c : Char) : Bool :=
  decide (0x6F0 ≤ c.toNat ∧ c.toNat ≤ 0x6F9)

/-! ### Generic lemmas about the helper functions -/

theorem tableLookup_mem {α : Type} {t : List (Char × α)} {c : Char} {v : α}
    (h : tableLookup t c = some v) : (c, v) ∈ t := by
  induction t with
  | nil => simp [tableLookup] at h
  | cons kv rest ih =>
    obtain ⟨k, w⟩ := kv
    by_cases hc : c = k
    · subst hc
      simp [tableLookup] at h
      simp [h]
    · simp [tableLookup, hc] at h
      exact List.mem_cons_of_mem _ (ih h)

theorem tableLookup_append_left {α : Type} {t1 t2 : List (Char × α)}
    {c : Char} {v : α} (h : tableLookup t1 c = some v) :
    tableLookup (t1 ++ t2) c = some v := by
  induction t1 with
  | nil => simp [tableLookup] at h
  | cons kv rest ih =>
    obtain ⟨k, w⟩ := kv
    by_cases hc : c = k
    · subst hc
      simpa [tableLookup] using h
    · simp only [List.cons_append, tableLookup, if_neg hc] at h ⊢
      exact ih h

theorem tableLookup_eq_none {α : Type} {t : List (Char × α)} {c : Char}
    (h : ∀ kv ∈ t, c ≠ kv.1) : tableLookup t c = none := by
  induction t with
  | nil => rfl
  | cons kv rest ih =>
    obtain ⟨k, w⟩ := kv
    have hk : c ≠ k := h (k, w) (List.mem_cons_self _ _)
    simp only [tableLookup, if_neg hk]
    exact ih fun kv hkv => h kv (List.mem_cons_of_mem _ hkv)

theorem seqLookup_mem {α : Type} {t : List (List Char × α)} {s : List Char}
    {v : α} (h : seqLookup t s = some v) : (s, v) ∈ t := by
  induction t with
  | nil => simp [seqLookup] at h
  | cons kv rest ih =>
    obtain ⟨k, w⟩ := kv
    by_cases hc : s = k
    · subst hc
      simp [seqLookup] at h
      simp [h]
    · simp [seqLookup, hc] at h
      exact List.mem_cons_of_mem _ (ih h)

theorem mem_concatMap {α β : Type} {f : α → List β} {l : List α} {c : β} :
    c ∈ concatMap f l ↔ ∃ d ∈ l, c ∈ f d := by
  induction l with
  | nil => simp [concatMap]
  | cons a rest ih => simp [concatMap, ih]

theorem concatMap_congr {α β : Type} {f g : α → List β} {l : List α}
    (h : ∀ c ∈ l, f c = g c) : concatMap f l = concatMap g l := by
  induction l with
  | nil => rfl
  | cons a rest ih =>
    simp only [concatMap, h a (List.mem_cons_self _ _)]
    rw [ih fun c hc => h c (List.mem_cons_of_mem _ hc)]

theorem concatMap_append {α β : Type} (f : α → List β) (l1 l2 : List α) :
    concatMap f (l1 ++ l2) = concatMap f l1 ++ concatMap f l2 := by
  induction l1 with
  | nil => rfl
  | cons a rest ih => simp [concatMap, ih]

theorem reverse_concatMap {α β : Type} (f : α → List β) (l : List α) :
    (concatMap f l).reverse = concatMap (fun c => (f c).reverse) l.reverse := by
  induction l with
  | nil => rfl
  | cons a rest ih =>
    simp only [concatMap, List.reverse_append, List.reverse_cons, ih,
      concatMap_append]
    simp [concatMap]

theorem map_eq_self {α : Type} {f : α → α} {l : List α}
    (h : ∀ c ∈ l, f c = c) : l.map f = l := by
  induction l with
  | nil => rfl
  | cons a rest ih =>
    simp only [List.map_cons, h a (List.mem_cons_self _ _)]
    rw [ih fun c hc => h c (List.mem_cons_of_mem _ hc)]

theorem char_toNat_ofNat {n : Nat} (h : n < 0xD800) :
    (Char.ofNat n).toNat = n := by
  unfold Char.ofNat
  rw [dif_pos (Or.inl h)]
  rfl

theorem jsToLower_cases (c : Char) :
    jsToLower c = c ∨
    (0x61 ≤ (jsToLower c).toNat ∧ (jsToLower c).toNat ≤ 0x7A) ∨
    (0xE0 ≤ (jsToLower c).toNat ∧ (jsToLower c).toNat ≤ 0xFE) := by
  unfold jsToLower
  split_ifs with h1 h2
  · right; left
    rw [char_toNat_ofNat (by omega)]
    omega
  · right; right
    rw [char_toNat_ofNat (by omega)]
    omega
  · left; rfl

theorem jsToLower_fixed_of_lower {d : Char}
    (h : (0x61 ≤ d.toNat ∧ d.toNat ≤ 0x7A) ∨
         (0xE0 ≤ d.toNat ∧ d.toNat ≤ 0xFE)) : jsToLower d = d := by
  unfold jsToLower
  rw [if_neg (by omega), if_neg (by omega)]

theorem jsToLower_idem (c : Char) : jsToLower (jsToLower c) = jsToLower c := by
  rcases jsToLower_cases c with h | h | h
  · rw [h]; exact h
  · exact jsToLower_fixed_of_lower (Or.inl h)
  · exact jsToLower_fixed_of_lower (Or.inr h)

theorem jsToLower_toNat_le (c : Char) (h : c.toNat ≤ 0xFE) :
    (jsToLower c).toNat ≤ 0xFE := by
  rcases jsToLower_cases c with hc | hc | hc
  · rw [hc]; exact h
  · omega
  · omega

theorem collapseWsWith_cons_nonws {r x : Char} {l : List Char}
    (h : isJsWs x = false) :
    collapseWsWith r (x :: l) = x :: collapseWsWith r l := by
  cases l with
  | nil => simp [collapseWsWith, h]
  | cons b rest => simp [collapseWsWith, h]

theorem collapseWsWith_append_nonws {r : Char} {p l : List Char}
    (h : ∀ c ∈ p, isJsWs c = false) :
    collapseWsWith r (p ++ l) = p ++ collapseWsWith r l := by
  induction p with
  | nil => rfl
  | cons x rest ih =>
    rw [List.cons_append,
      collapseWsWith_cons_nonws (h x (List.mem_cons_self _ _)),
      ih fun c hc => h c (List.mem_cons_of_mem _ hc), List.cons_append]

theorem mem_collapseWsWith {r c : Char} {l : List Char}
    (h : c ∈ collapseWsWith r l) :
    c = r ∨ (c ∈ l ∧ isJsWs c = false) := by
  induction l with
  | nil => simp [collapseWsWith] at h
  | cons a rest ih =>
    cases rest with
    | nil =>
      by_cases ha : isJsWs a
      · simp [collapseWsWith, ha] at h
        exact Or.inl h
      · simp [collapseWsWith, ha] at h
        subst h
        simp [ha]
    | cons b r2 =>
      by_cases ha : isJsWs a
      · by_cases hb : isJsWs b
        · rw [show collapseWsWith r (a :: b :: r2) =
              collapseWsWith r (b :: r2) by simp [collapseWsWith, ha, hb]]
            at h
          rcases ih h with h1 | h1
          · exact Or.inl h1
          · exact Or.inr ⟨List.mem_cons_of_mem _ h1.1, h1.2⟩
        · rw [show collapseWsWith r (a :: b :: r2) =
              r :: collapseWsWith r (b :: r2) by
              simp [collapseWsWith, ha, hb]] at h
          rcases List.mem_cons.mp h with h1 | h1
          · exact Or.inl h1
          · rcases ih h1 with h2 | h2
            · exact Or.inl h2
            · exact Or.inr ⟨List.mem_cons_of_mem _ h2.1, h2.2⟩
      · rw [collapseWsWith_cons_nonws (by simp [ha])] at h
        rcases List.mem_cons.mp h with h1 | h1
        · subst h1
          exact Or.inr ⟨List.mem_cons_self _ _, by simp [ha]⟩
        · rcases ih h1 with h2 | h2
          · exact Or.inl h2
          · exact Or.inr ⟨List.mem_cons_of_mem _ h2.1, h2.2⟩

theorem collapseWsWith_head {r : Char} :
    ∀ (l : List Char) (b : Char),
    (collapseWsWith r (b :: l)).head? =
    some (if isJsWs b then r else b) := by
  intro l
  induction l with
  | nil =>
    intro b
    by_cases hb : isJsWs b <;> simp [collapseWsWith, hb]
  | cons d r2 ih =>
    intro b
    by_cases hb : isJsWs b
    · by_cases hd : isJsWs d
      · rw [show collapseWsWith r (b :: d :: r2) =
            collapseWsWith r (d :: r2) by simp [collapseWsWith, hb, hd]]
        rw [ih d]
        simp [hb, hd]
      · rw [show collapseWsWith r (b :: d :: r2) =
            r :: collapseWsWith r (d :: r2) by
            simp [collapseWsWith, hb, hd]]
        simp [hb]
    · rw [collapseWsWith_cons_nonws (by simp [hb])]
      simp [hb]

theorem chain'_collapseWsWith {r : Char} (l : List Char) :
    List.Chain' (fun a b => ¬(isJsWs a = true ∧ isJsWs b = true))
      (collapseWsWith r l) := by
  induction l with
  | nil => simp [collapseWsWith]
  | cons a rest ih =>
    cases rest with
    | nil =>
      by_cases ha : isJsWs a <;> simp [collapseWsWith, ha]
    | cons b r2 =>
      by_cases ha : isJsWs a
      · by_cases hb : isJsWs b
        · rw [show collapseWsWith r (a :: b :: r2) =
              collapseWsWith r (b :: r2) by simp [collapseWsWith, ha, hb]]
          exact ih
        · rw [show collapseWsWith r (a :: b :: r2) =
              r :: collapseWsWith r (b :: r2) by
              simp [collapseWsWith, ha, hb]]
          refine List.chain'_cons'.mpr ⟨?_, ih⟩
          intro y hy
          rw [collapseWsWith_head] at hy
          simp only [Option.mem_def, Option.some.injEq] at hy
          subst hy
          simp [hb]
      · rw [collapseWsWith_cons_nonws (by simp [ha])]
        refine List.chain'_cons'.mpr ⟨?_, ih⟩
        intro y hy
        rw [collapseWsWith_head] at hy
        simp only [Option.mem_def, Option.some.injEq] at hy
        subst hy
        simp [ha]

theorem collapseWsWith_eq_self {r : Char} {l : List Char}
    (hr : ∀ c ∈ l, isJsWs c = true → c = r)
    (hch : List.Chain' (fun a b => ¬(isJsWs a = true ∧ isJsWs b = true)) l) :
    collapseWsWith r l = l := by
  induction l with
  | nil => rfl
  | cons a rest ih =>
    cases rest with
    | nil =>
      by_cases ha : isJsWs a
      · have := hr a (List.mem_cons_self _ _) ha
        simp [collapseWsWith, ha, this]
      · simp [collapseWsWith, ha]
    | cons b r2 =>
      have hnadj : ¬(isJsWs a = true ∧ isJsWs b = true) :=
        (List.chain'_cons.mp hch).1
      have hrest :
          collapseWsWith r (b :: r2) = b :: r2 :=
        ih (fun c hc h => hr c (List.mem_cons_of_mem _ hc) h)
          (List.chain'_cons'.mp hch).2
      by_cases ha : isJsWs a
      · have hb : isJsWs b = false := by
          rcases Bool.eq_false_or_eq_true (isJsWs b) with h | h
          · exact absurd ⟨ha, h⟩ hnadj
          · exact h
        have har : a = r := hr a (List.mem_cons_self _ _) ha
        rw [show collapseWsWith r (a :: b :: r2) =
            r :: collapseWsWith r (b :: r2) by
            simp [collapseWsWith, ha, hb]]
        rw [hrest, har]
      · rw [collapseWsWith_cons_nonws (by simp [ha]), hrest]

theorem collapseWsWith_ne_nil {r : Char} {l : List Char} (h : l ≠ []) :
    collapseWsWith r l ≠ [] := by
  cases l with
  | nil => exact absurd rfl h
  | cons b rest =>
    intro hnil
    have := collapseWsWith_head (r := r) (b := b) (l := rest)
    rw [hnil] at this
    simp at this

theorem head_dropWhile_not {p : Char → Bool} {l : List Char} {y : Char}
    (h : (l.dropWhile p).head? = some y) : p y = false := by
  induction l with
  | nil => simp [List.dropWhile] at h
  | cons a rest ih =>
    by_cases ha : p a
    · rw [List.dropWhile_cons_of_pos ha] at h
      exact ih h
    · rw [List.dropWhile_cons_of_neg ha] at h
      simp only [List.head?_cons, Option.some.injEq] at h
      subst h
      simpa using ha

theorem dropWhile_eq_self_of_head {p : Char → Bool} {l : List Char}
    (h : ∀ y, l.head? = some y → p y = false) : l.dropWhile p = l := by
  cases l with
  | nil => rfl
  | cons a rest =>
    have := h a rfl
    rw [List.dropWhile_cons_of_neg (by simp [this])]

theorem mem_trimFront {c : Char} {l : List Char} (h : c ∈ trimFront l) :
    c ∈ l := (List.dropWhile_suffix isJsWs).subset h

theorem mem_trimBack {c : Char} {l : List Char} (h : c ∈ trimBack l) :
    c ∈ l := by
  unfold trimBack at h
  rw [List.mem_reverse] at h
  have := (List.dropWhile_suffix isJsWs).subset h
  rwa [List.mem_reverse] at this

theorem mem_jsTrim {c : Char} {l : List Char} (h : c ∈ jsTrim l) : c ∈ l :=
  mem_trimBack (mem_trimFront h)

theorem trimFront_head {l : List Char} {y : Char}
    (h : (trimFront l).head? = some y) : isJsWs y = false :=
  head_dropWhile_not h

theorem trimBack_revhead {l : List Char} {y : Char}
    (h : (trimBack l).reverse.head? = some y) : isJsWs y = false := by
  unfold trimBack at h
  rw [List.reverse_reverse] at h
  exact head_dropWhile_not h

theorem trimFront_eq_self {l : List Char}
    (h : ∀ y, l.head? = some y → isJsWs y = false) : trimFront l = l :=
  dropWhile_eq_self_of_head h

theorem trimBack_eq_self {l : List Char}
    (h : ∀ y, l.reverse.head? = some y → isJsWs y = false) :
    trimBack l = l := by
  unfold trimBack
  rw [dropWhile_eq_self_of_head h, List.reverse_reverse]

theorem trimFront_idem (l : List Char) :
    trimFront (trimFront l) = trimFront l :=
  trimFront_eq_self fun _ hy => trimFront_head hy

theorem revhead_of_suffix {l m : List Char} {y : Char} (hs : m <:+ l)
    (h : m.reverse.head? = some y) : l.reverse.head? = some y := by
  obtain ⟨p, hp⟩ := hs
  subst hp
  rw [List.reverse_append]
  cases hm : m.reverse with
  | nil => rw [hm] at h; simp at h
  | cons a t =>
    rw [hm] at h
    simpa using h

theorem jsTrim_idem (l : List Char) : jsTrim (jsTrim l) = jsTrim l := by
  unfold jsTrim
  have h1 : trimBack (trimFront (trimBack l)) = trimFront (trimBack l) := by
    refine trimBack_eq_self fun y hy => ?_
    have hs : trimFront (trimBack l) <:+ trimBack l :=
      List.dropWhile_suffix isJsWs
    exact trimBack_revhead (revhead_of_suffix hs hy)
  rw [h1, trimFront_idem]

theorem jsTrim_eq_nil_iff {l : List Char} :
    jsTrim l = [] ↔ ∀ c ∈ l, isJsWs c = true := by
  unfold jsTrim trimFront trimBack
  rw [List.dropWhile_eq_nil_iff]
  constructor
  · intro h c hc
    by_cases hw : isJsWs c
    · exact hw
    · exfalso
      have hc2 : c ∈ (l.reverse.dropWhile isJsWs).reverse := by
        rw [List.mem_reverse]
        have hsplit := List.takeWhile_append_dropWhile (p := isJsWs)
          (l := l.reverse)
        by_cases hcd : c ∈ l.reverse.dropWhile isJsWs
        · exact hcd
        · exfalso
          have : c ∈ l.reverse := by rwa [List.mem_reverse]
          rw [← hsplit] at this
          rcases List.mem_append.mp this with h1 | h1
          · exact hw (List.mem_takeWhile_imp h1)
          · exact hcd h1
      exact hw (h c hc2)
  · intro h c hc
    exact h c (mem_trimBack hc)

theorem chain'_trimFront {R : Char → Char → Prop} {l : List Char}
    (h : List.Chain' R l) : List.Chain' R (trimFront l) :=
  h.suffix (List.dropWhile_suffix isJsWs)

theorem chain'_trimBack {R : Char → Char → Prop} {l : List Char}
    (h : List.Chain' R l) : List.Chain' R (trimBack l) := by
  unfold trimBack
  rw [List.chain'_reverse]
  have h1 : List.Chain' (fun a b => R b a) l.reverse := by
    rw [List.chain'_reverse]
    simpa using h
  exact h1.suffix (List.dropWhile_suffix isJsWs)

theorem chain'_jsTrim {R : Char → Char → Prop} {l : List Char}
    (h : List.Chain' R l) : List.Chain' R (jsTrim l) :=
  chain'_trimFront (chain'_trimBack h)

theorem any_congr {l : List Char} {f g : Char → Bool}
    (h : ∀ c ∈ l, f c = g c) : l.any f = l.any g := by
  induction l with
  | nil => rfl
  | cons a rest ih =>
    simp only [List.any_cons, h a (List.mem_cons_self _ _)]
    rw [ih fun c hc => h c (List.mem_cons_of_mem _ hc)]

theorem transliterateHasArabic_eq (l : List Char) :
    transliterateHasArabic l = containsArabicScript l := by
  unfold transliterateHasArabic containsArabicScript
  refine any_congr fun c _ => ?_
  unfold isArabicScriptChar ARABIC_SCRIPT_RANGES
  simp only [List.any_cons, List.any_nil, Bool.or_false]
  rw [Bool.eq_iff_iff]
  simp only [decide_eq_true_eq, Bool.or_eq_true, Bool.and_eq_true,
    decide_eq_true_eq]

/-- C2: `transliterate(text, options)` equals `arabicToLatin(text)` when
some code point of `text` lies in one of the four Arabic ranges
U+0600-06FF, U+0750-077F, U+FB50-FDFF, U+FE70-FEFF, and equals
`latinToArabic(text)` otherwise; the options argument has no observable
effect (two calls with the same text and different options agree). -/
theorem c2_transliterate_dispatch (l : List Char)
    (o o2 : TransliterateOptions) :
    transliterate l o = transliterate l o2 ∧
    transliterate l o =
      (if containsArabicScript l then toULY l else toArabic l) := by
  refine ⟨rfl, ?_⟩
  by_cases hl : l = []
  · subst hl
    rfl
  · have h1 : l.isEmpty = false := by simp [hl]
    simp only [transliterate, h1, Bool.false_eq_true, if_false,
      transliterateHasArabic_eq]

/-- C8: `latinToArabic` is case-insensitive; it lowercases the entire
input before scanning, so lowercasing the input first changes nothing. -/
theorem c8_case_insensitive (l : List Char) :
    toArabic (l.map jsToLower) = toArabic l := by
  by_cases hl : l = []
  · subst hl
    rfl
  · have h1 : l.isEmpty = false := by simp [hl]
    have h2 : (l.map jsToLower).isEmpty = false := by simp [hl]
    simp only [toArabic, h1, h2, Bool.false_eq_true, if_false]
    rw [List.map_map]
    exact congrArg (fun m => jsTrim (scanLatin m))
      (List.map_congr_left fun c _ => jsToLower_idem c)

/-- C3: for every input and every options value with `maxLength ≥ 1`, the
length of `generateSlug(t, options)` is at most `maxLength`. -/
theorem c3_slug_length (text : List Char) (o : SlugOptions)
    (h : 1 ≤ o.maxLength) :
    (generateSlug text o).length ≤ o.maxLength := by
  unfold generateSlug slugifyLatin truncateStep
  split
  · simp
  · split
    · dsimp only
      split
      · simp only [List.length_take]
        omega
      · simp only [List.length_take]
        omega
    · omega

/-- Witness for C3 at a concrete input. -/
theorem c3_slug_length_witness :
    (generateSlug ['a', 'b', ' ', 'c', 'd']
      { maxLength := 10, separator := '-', lowercase := true,
        trim := true }).length ≤ 10 :=
  c3_slug_length ['a', 'b', ' ', 'c', 'd'] _ (by decide)

theorem allowedUlyOutput_not_arabic {c : Char}
    (h : allowedUlyOutput c = true) : isArabicScriptChar c = false := by
  have hlt : c.toNat < 0x600 := by
    unfold allowedUlyOutput at h
    simp only [Bool.or_eq_true] at h
    rcases h with ((((h | h) | h) | h) | h)
    · unfold isAsciiAlpha at h
      simp only [Bool.or_eq_true, decide_eq_true_eq] at h
      omega
    · unfold isAsciiDigit at h
      simp only [decide_eq_true_eq] at h
      omega
    · have hce : c = ' ' := by simpa using h
      subst hce
      decide
    · unfold isPunctKeep at h
      have hm := List.mem_of_elem_eq_true h
      simp only [List.mem_cons, List.mem_singleton, List.not_mem_nil,
        or_false] at hm
      rcases hm with hc | hc | hc | hc | hc | hc | hc | hc | hc | hc | hc <;>
        subst hc <;> decide
    · have hm := List.mem_of_elem_eq_true h
      simp only [List.mem_cons, List.mem_singleton, List.not_mem_nil,
        or_false] at hm
      rcases hm with hc | hc | hc <;> subst hc <;> decide
  unfold isArabicScriptChar ARABIC_SCRIPT_RANGES
  simp only [List.any_cons, List.any_nil, Bool.or_false, Bool.or_eq_false_iff,
    Bool.and_eq_false_iff]
  refine ⟨?_, ?_, ?_, ?_⟩ <;>
    (left; simp only [decide_eq_false_iff_not]; omega)

/-- C9: every character of the output of `arabicToLatin` (`toULY`) is an
ASCII letter, an ASCII digit, a single space, one of the punctuation
characters of the fixed pass-through set, or one of `ö`, `ü`, `é`; in
particular no Arabic-script code point ever appears in the output. -/
theorem c9_uly_output_alphabet (l : List Char) :
    (toULY l).all (fun c => allowedUlyOutput c && !isArabicScriptChar c)
      = true := by
  rw [List.all_eq_true]
  intro c hc
  suffices h : allowedUlyOutput c = true by
    rw [h, allowedUlyOutput_not_arabic h]
    rfl
  by_cases hl : l = []
  · subst hl
    simp [toULY] at hc
  · have h1 : l.isEmpty = false := by simp [hl]
    simp only [toULY, h1, Bool.false_eq_true, if_false] at hc
    have h2 := mem_jsTrim hc
    unfold collapseWs at h2
    rcases mem_collapseWsWith h2 with h3 | h3
    · subst h3
      decide
    · obtain ⟨d, _, hcd⟩ := mem_concatMap.mp h3.1
      unfold ulyStep at hcd
      cases htab : tableLookup COMPLETE_ARABIC_TO_LATIN d with
      | some v =>
        rw [htab] at hcd
        have hall : COMPLETE_ARABIC_TO_LATIN.all
            (fun kv => kv.2.all allowedUlyOutput) = true := by decide
        have hmem := tableLookup_mem htab
        have := (List.all_eq_true.mp hall) (d, v) hmem
        exact (List.all_eq_true.mp this) c hcd
      | none =>
        rw [htab] at hcd
        split_ifs at hcd with hws halnum hpunct
        · have : c = ' ' := by simpa using hcd
          subst this
          decide
        · have : c = d := by simpa using hcd
          subst this
          unfold allowedUlyOutput
          unfold isAsciiAlnum at halnum
          simp [halnum]
        · have : c = d := by simpa using hcd
          subst this
          unfold allowedUlyOutput
          simp [hpunct]
        · simp at hcd

theorem jsTrim_isEmpty_eq (l : List Char) :
    (jsTrim l).isEmpty = l.all isJsWs := by
  rcases Bool.eq_false_or_eq_true (l.all isJsWs) with h | h
  · rw [h]
    have he : jsTrim l = [] := jsTrim_eq_nil_iff.mpr (List.all_eq_true.mp h)
    simp [he]
  · rw [h]
    have hne : jsTrim l ≠ [] := by
      intro he
      have hall := jsTrim_eq_nil_iff.mp he
      exact absurd (List.all_eq_true.mpr hall) (by simp [h])
    simp [List.isEmpty_iff, hne]

/-- C5: `detectScript` implements exactly the claimed decision procedure:
unknown on empty/all-white-space input; `mixed` when more than one of the
four presence flags holds; Arabic refined into `uyghur`/`arabic` by the
Uyghur-specific characters; single flags mapped directly; else unknown. -/
theorem c5_detectScript (l : List Char) : detectScript l = detectScriptSpec l := by
  unfold detectScript detectScriptSpec
  have hiff : (l.isEmpty || (jsTrim l).isEmpty) = true ↔
      (l = [] ∨ l.all isJsWs = true) := by
    rw [Bool.or_eq_true_iff, jsTrim_isEmpty_eq, List.isEmpty_iff]
  by_cases hg : l = [] ∨ l.all isJsWs = true
  · rw [if_pos (hiff.mpr hg), if_pos hg]
  · rw [if_neg (fun h => hg (hiff.mp h)), if_neg hg]
    cases ha : containsArabicScript l <;>
      cases hl2 : containsLatin l <;>
        cases hc2 : containsChinese l <;>
          cases hy2 : containsCyrillic l <;>
            simp [ha, hl2, hc2, hy2, List.filter]

theorem isJsWs_awChar (c : Char) : isJsWs (awChar c) = isJsWs c := by
  unfold awChar
  cases h1 : tableLookup ARABIC_INDIC_NUMERALS c with
  | some w =>
    have hmem := tableLookup_mem h1
    have hfact : ARABIC_INDIC_NUMERALS.all
        (fun kv => !isJsWs kv.1 && !isJsWs kv.2) = true := by decide
    have := (List.all_eq_true.mp hfact) (c, w) hmem
    simp only [Bool.and_eq_true, Bool.not_eq_true'] at this
    rw [this.1, this.2]
  | none =>
    cases h2 : tableLookup EXTENDED_ARABIC_INDIC_NUMERALS c with
    | some w =>
      have hmem := tableLookup_mem h2
      have hfact : EXTENDED_ARABIC_INDIC_NUMERALS.all
          (fun kv => !isJsWs kv.1 && !isJsWs kv.2) = true := by decide
      have := (List.all_eq_true.mp hfact) (c, w) hmem
      simp only [Bool.and_eq_true, Bool.not_eq_true'] at this
      rw [this.1, this.2]
    | none => rfl

theorem toWesternNumerals_dropWs (l : List Char) :
    (toWesternNumerals (jsTrim l)).dropWhile isJsWs =
    toWesternNumerals (jsTrim l) := by
  refine dropWhile_eq_self_of_head fun y hy => ?_
  cases ht : jsTrim l with
  | nil => rw [ht] at hy; simp [toWesternNumerals] at hy
  | cons a t =>
    rw [ht] at hy
    have hne : (a :: t).isEmpty = false := by simp
    simp only [toWesternNumerals, hne, Bool.false_eq_true, if_false,
      List.map_cons, List.head?_cons, Option.some.injEq] at hy
    subst hy
    rw [isJsWs_awChar]
    refine trimFront_head (l := trimBack l) ?_
    unfold jsTrim at ht
    rw [ht]
    rfl

/-- C6 (amended): `parseNumber` trims, converts to Western numerals and
applies `parseInt` base 10: the NaN sentinel is produced exactly when the
converted text does not begin with an optional sign followed by an ASCII
digit; otherwise the longest leading digit run is parsed and trailing
characters are ignored. -/
theorem c6_parseNumber_spec (l : List Char) :
    parseNumber l = parseNumberSpec l := by
  by_cases hl : l = []
  · subst hl
    rfl
  · have h1 : l.isEmpty = false := by simp [hl]
    unfold parseNumber parseNumberSpec
    simp only [h1, Bool.false_eq_true, if_false]
    unfold parseIntTen
    rw [toWesternNumerals_dropWs]

/-- Counterexample for C6 as stated: the trimmed, numeral-converted form
of `"12ab"` is not a valid base-10 integer literal, yet `parseNumber`
returns 12 rather than the NaN sentinel. -/
theorem c6_counterexample :
    parseNumber ['1', '2', 'a', 'b'] = some 12 ∧
    parseNumber ['1', '2', 'a', 'b'] ≠ none ∧
    isIntegerLiteral (toWesternNumerals (jsTrim ['1', '2', 'a', 'b'])) =
      false := by
  refine ⟨by decide, by decide, by decide⟩

/-- C10: for text with no Arabic-Indic digit (U+0660-0669) and no Extended
Arabic-Indic digit (U+06F0-06F9), converting to Arabic-Indic numerals and
back to Western numerals reproduces the text exactly. -/
theorem c10_numeral_roundtrip (l : List Char)
    (h : ∀ c ∈ l, isArabicIndicDigit c = false ∧
         isExtArabicIndicDigit c = false) :
    toWesternNumerals (toArabicIndicNumerals l) = l := by
  by_cases hl : l = []
  · subst hl
    rfl
  · have h1 : l.isEmpty = false := by simp [hl]
    have h2 : (l.map waChar).isEmpty = false := by simp [hl]
    unfold toWesternNumerals toArabicIndicNumerals
    simp only [h1, h2, Bool.false_eq_true, if_false]
    rw [List.map_map]
    refine map_eq_self fun c hc => ?_
    obtain ⟨hai, hext⟩ := h c hc
    show awChar (waChar c) = c
    unfold waChar
    cases hwa : tableLookup WESTERN_TO_ARABIC_INDIC_NUMERALS c with
    | some a =>
      have hmem := tableLookup_mem hwa
      have hfact : WESTERN_TO_ARABIC_INDIC_NUMERALS.all
          (fun kv => awChar kv.2 == kv.1) = true := by decide
      have := (List.all_eq_true.mp hfact) (c, a) hmem
      exact eq_of_beq this
    | none =>
      unfold awChar
      cases hq1 : tableLookup ARABIC_INDIC_NUMERALS c with
      | some w =>
        have hmem := tableLookup_mem hq1
        have hfact : ARABIC_INDIC_NUMERALS.all
            (fun kv => isArabicIndicDigit kv.1) = true := by decide
        have := (List.all_eq_true.mp hfact) (c, w) hmem
        rw [hai] at this
        exact absurd this (by simp)
      | none =>
        cases hq2 : tableLookup EXTENDED_ARABIC_INDIC_NUMERALS c with
        | some w =>
          have hmem := tableLookup_mem hq2
          have hfact : EXTENDED_ARABIC_INDIC_NUMERALS.all
              (fun kv => isExtArabicIndicDigit kv.1) = true := by decide
          have := (List.all_eq_true.mp hfact) (c, w) hmem
          rw [hext] at this
          exact absurd this (by simp)
        | none => rfl

/-- Witness for C10 at a concrete input. -/
theorem c10_numeral_roundtrip_witness :
    toWesternNumerals (toArabicIndicNumerals
      ['Y', 'e', 'a', 'r', ':', ' ', '2', '0', '2', '4']) =
    ['Y', 'e', 'a', 'r', ':', ' ', '2', '0', '2', '4'] :=
  c10_numeral_roundtrip _ (by decide)

set_option maxRecDepth 4000 in
/-- At maxLength 90 the double product 90 * 0.7 is 62.99999999999999, so a
separator exactly at index 63 = 0.7 * 90 is strictly greater than it and the
slug IS cut there (unlike at maxLength 10 or 100, where the product is exact). -/
theorem truncateStep_maxLength90_cuts :
    truncateStep (Char.ofNat 45) 90
      (List.replicate 63 (Char.ofNat 97) ++
        Char.ofNat 45 :: List.replicate 60 (Char.ofNat 98)) =
    List.replicate 63 (Char.ofNat 97) := by decide

theorem int_nonneg_of_cast_mul_lt {p a b : Nat} {i : Int}
    (h : (p : Int) * 2 ^ a < i * 2 ^ b) : 0 ≤ i := by
  by_contra hneg
  push_neg at hneg
  have hb : (0 : Int) < 2 ^ b := by positivity
  have hle : i * (2 : Int) ^ b ≤ 0 :=
    mul_nonpos_iff.mpr (Or.inr ⟨le_of_lt hneg, le_of_lt hb⟩)
  have ha : (0 : Int) ≤ (p : Int) * 2 ^ a := by positivity
  linarith

theorem jsGtTimes07_nonneg {i : Int} {m : Nat}
    (h : jsGtTimes07 i m = true) : 0 ≤ i := by
  unfold jsGtTimes07 at h
  simp only [decide_eq_true_eq] at h
  exact int_nonneg_of_cast_mul_lt h

theorem slugPre_nil (o : SlugOptions) : slugPre [] o = [] := by
  unfold slugPre
  cases o.lowercase <;> cases o.trim <;>
    simp [concatMap, collapseWsWith, collapseCharRuns, dropOneLeading,
      dropOneTrailing]

/-- C4 (amended): when the slug after filtering/collapsing/trimming
exceeds `maxLength`, `generateSlug` first truncates to exactly
`maxLength` characters and then cuts at the last separator occurrence of
the truncated string only when that occurrence is STRICTLY GREATER than
the IEEE-754 double product `maxLength * 0.7` (discarding the separator);
otherwise the hard cut is kept.  The double product is exactly
`0.7 * maxLength` for maxLength 10 or 100 (so a separator exactly at the
boundary keeps the hard cut there) but rounds just below it for
maxLength 90, 170, 180, ... (so a separator exactly at `0.7 * maxLength`
is cut there). -/
theorem c4_truncation (text : List Char) (o : SlugOptions)
    (h : o.maxLength < (preSlug text o).length) :
    generateSlug text o =
    specTruncateGT o.separator o.maxLength (preSlug text o) := by
  by_cases htext : text = []
  · exfalso
    subst htext
    have : preSlug [] o = [] := by
      show slugPre (slugInput []) o = []
      have hsi : slugInput [] = [] := rfl
      rw [hsi, slugPre_nil]
    rw [this] at h
    simp at h
  · have h1 : text.isEmpty = false := by simp [htext]
    show (if text.isEmpty then [] else slugifyLatin (slugInput text) o) = _
    simp only [h1, Bool.false_eq_true, if_false]
    show truncateStep o.separator o.maxLength (preSlug text o) = _
    unfold truncateStep specTruncateGT
    rw [if_pos (show (preSlug text o).length > o.maxLength by omega)]
    rw [if_neg (show ¬((preSlug text o).length ≤ o.maxLength) by omega)]
    dsimp only
    refine if_congr ?_ rfl rfl
    constructor
    · intro h2
      exact ⟨jsGtTimes07_nonneg h2, h2⟩
    · rintro ⟨h2, h3⟩
      exact h3

/-- Witness for C4 (amended) at a concrete input. -/
theorem c4_truncation_witness :
    generateSlug ['a', 'b', 'c', 'd', 'e', 'f', 'g', ' ', 'h', 'i', 'j', 'k']
      ⟨10, '-', true, true⟩ =
    specTruncateGT '-' 10
      (preSlug ['a', 'b', 'c', 'd', 'e', 'f', 'g', ' ', 'h', 'i', 'j', 'k']
        ⟨10, '-', true, true⟩) :=
  c4_truncation _ _ (by decide)

/-- Counterexample for C4 as stated ("at or after" the 0.7 boundary): on
the input `"abcdefg hijk"` with `maxLength = 10` the truncated slug
`"abcdefg-hi"` has its last separator exactly at position 7 = 0.7 * 10,
the claimed rule would cut there to give `"abcdefg"`, but `generateSlug`
keeps the hard cut `"abcdefg-hi"`. -/
theorem c4_counterexample :
    generateSlug ['a', 'b', 'c', 'd', 'e', 'f', 'g', ' ', 'h', 'i', 'j', 'k']
      ⟨10, '-', true, true⟩ =
      ['a', 'b', 'c', 'd', 'e', 'f', 'g', '-', 'h', 'i'] ∧
    (preSlug ['a', 'b', 'c', 'd', 'e', 'f', 'g', ' ', 'h', 'i', 'j', 'k']
      ⟨10, '-', true, true⟩).length = 12 ∧
    specTruncateGE '-' 10
      (preSlug ['a', 'b', 'c', 'd', 'e', 'f', 'g', ' ', 'h', 'i', 'j', 'k']
        ⟨10, '-', true, true⟩) = ['a', 'b', 'c', 'd', 'e', 'f', 'g'] ∧
    (['a', 'b', 'c', 'd', 'e', 'f', 'g', '-', 'h', 'i'] : List Char) ≠
      ['a', 'b', 'c', 'd', 'e', 'f', 'g'] := by
  refine ⟨by decide, by decide, by decide, by decide⟩

theorem concatMap_singleton {α : Type} (l : List α) :
    concatMap (fun c => [c]) l = l := by
  induction l with
  | nil => rfl
  | cons a rest ih => simp [concatMap, ih]

theorem applyCharNorms_eq_self {l : List Char}
    (h : ∀ c ∈ l, tableLookup CHAR_NORMALIZATIONS c = none) :
    applyCharNorms l = l := by
  unfold applyCharNorms
  have hcg : concatMap
      (fun c => (tableLookup CHAR_NORMALIZATIONS c).getD [c]) l =
      concatMap (fun c => [c]) l :=
    concatMap_congr fun c hc => by rw [h c hc]; rfl
  rw [hcg, concatMap_singleton]

theorem mem_applyCharNorms_key_free {l : List Char} {c : Char}
    (h : c ∈ applyCharNorms l) :
    tableLookup CHAR_NORMALIZATIONS c = none := by
  obtain ⟨d, _, hcd⟩ := mem_concatMap.mp h
  cases hld : tableLookup CHAR_NORMALIZATIONS d with
  | some v =>
    rw [hld] at hcd
    simp only [Option.getD_some] at hcd
    have hmem := tableLookup_mem hld
    have hfact : CHAR_NORMALIZATIONS.all
        (fun kv => kv.2.all
          (fun x => (tableLookup CHAR_NORMALIZATIONS x).isNone)) = true := by
      decide
    have hv := (List.all_eq_true.mp hfact) (d, v) hmem
    have hx := (List.all_eq_true.mp hv) c hcd
    exact Option.eq_none_of_isNone hx
  | none =>
    rw [hld] at hcd
    simp only [Option.getD_none, List.mem_singleton] at hcd
    subst hcd
    exact hld

theorem normKey_none_of_small {c : Char} (h : c.toNat ≤ 0xFE) :
    tableLookup CHAR_NORMALIZATIONS c = none := by
  apply tableLookup_eq_none
  intro kv hkv heq
  have hfact : CHAR_NORMALIZATIONS.all
      (fun kv => decide (0x200 ≤ kv.1.toNat)) = true := by decide
  have := of_decide_eq_true ((List.all_eq_true.mp hfact) kv hkv)
  rw [← heq] at this
  omega

theorem hamza_contains_of_small {c : Char} (h : c.toNat ≤ 0xFE) :
    hamzaFamily.contains c = false := by
  rcases Bool.eq_false_or_eq_true (hamzaFamily.contains c) with hc | hc
  · have hmem := List.mem_of_elem_eq_true hc
    have hfact : hamzaFamily.all
        (fun x => decide (0x600 ≤ x.toNat)) = true := by decide
    have := of_decide_eq_true ((List.all_eq_true.mp hfact) c hmem)
    omega
  · exact hc

theorem diacritic_false_of_small {c : Char} (h : c.toNat ≤ 0xFE) :
    isArabicDiacritic c = false := by
  unfold isArabicDiacritic
  simp only [decide_eq_false_iff_not]
  omega

theorem mem_removeDiacritics {m : List Char} {d : Char}
    (h : d ∈ removeDiacritics m) :
    d ∈ m ∧ isArabicDiacritic d = false := by
  unfold removeDiacritics at h
  by_cases hm : m.isEmpty
  · rw [if_pos hm] at h
    simp at h
  · rw [if_neg hm] at h
    refine ⟨List.mem_of_mem_filter h, ?_⟩
    have := List.of_mem_filter h
    simpa using this

theorem mem_removeHamza {m : List Char} {d : Char}
    (h : d ∈ removeHamza m) :
    d ∈ m ∧ hamzaFamily.contains d = false := by
  unfold removeHamza at h
  by_cases hm : m.isEmpty
  · rw [if_pos hm] at h
    simp at h
  · rw [if_neg hm] at h
    refine ⟨List.mem_of_mem_filter h, ?_⟩
    have := List.of_mem_filter h
    simpa using this

theorem mem_normalizeUyghur_key_free {t : List Char} {d : Char}
    (h : d ∈ normalizeUyghur t) :
    tableLookup CHAR_NORMALIZATIONS d = none := by
  unfold normalizeUyghur at h
  by_cases ht : t.isEmpty
  · rw [if_pos ht] at h
    simp at h
  · rw [if_neg ht] at h
    have h2 := mem_jsTrim h
    unfold collapseWs at h2
    rcases mem_collapseWsWith h2 with hsp | ⟨hmem, _⟩
    · subst hsp
      decide
    · exact mem_applyCharNorms_key_free hmem

theorem collapseWs_of_jsTrim_collapseWs (x : List Char) :
    collapseWs (jsTrim (collapseWs x)) = jsTrim (collapseWs x) := by
  unfold collapseWs
  apply collapseWsWith_eq_self
  · intro c hc hw
    rcases mem_collapseWsWith (mem_jsTrim hc) with hsp | ⟨_, hnw⟩
    · exact hsp
    · rw [hw] at hnw
      cases hnw
  · exact chain'_jsTrim (chain'_collapseWsWith x)

theorem nfs_char_props {t : List Char} {c : Char}
    (hc : c ∈ normalizeForSearch t) :
    tableLookup CHAR_NORMALIZATIONS c = none ∧
    isArabicDiacritic c = false ∧
    hamzaFamily.contains c = false ∧
    jsToLower c = c ∧
    searchPunct.contains c = false := by
  by_cases ht : t = []
  · subst ht
    simp [normalizeForSearch] at hc
  · have h1 : t.isEmpty = false := by simp [ht]
    unfold normalizeForSearch at hc
    rw [h1] at hc
    simp only [Bool.false_eq_true, if_false] at hc
    have hc2 := mem_jsTrim hc
    unfold collapseWs at hc2
    rcases mem_collapseWsWith hc2 with hsp | ⟨hcf, _⟩
    · subst hsp
      refine ⟨by decide, by decide, by decide, by decide, by decide⟩
    · have hpunct := List.of_mem_filter hcf
      have hcu := List.mem_of_mem_filter hcf
      obtain ⟨d, hd, hcd⟩ := List.mem_map.mp hcu
      obtain ⟨hd1, hdh⟩ := mem_removeHamza hd
      obtain ⟨hd2, hdd⟩ := mem_removeDiacritics hd1
      have hdkey := mem_normalizeUyghur_key_free hd2
      subst hcd
      refine ⟨?_, ?_, ?_, jsToLower_idem d, by simpa using hpunct⟩
      · rcases jsToLower_cases d with he | he | he
        · rw [he]
          exact hdkey
        · exact normKey_none_of_small (by omega)
        · exact normKey_none_of_small (by omega)
      · rcases jsToLower_cases d with he | he | he
        · rw [he]
          exact hdd
        · exact diacritic_false_of_small (by omega)
        · exact diacritic_false_of_small (by omega)
      · rcases jsToLower_cases d with he | he | he
        · rw [he]
          exact hdh
        · exact hamza_contains_of_small (by omega)
        · exact hamza_contains_of_small (by omega)

/-- C7 (amended): `normalizeForSearch` is idempotent on every input whose
image is NFC-normalized (removals can uncover base-plus-combining-mark
pairs that a second NFC pass would compose, which breaks idempotence in
general; on NFC-fixed images every stage of the pipeline is a no-op). -/
theorem c7_normalizeForSearch_idempotent (t : List Char)
    (h : nfc (normalizeForSearch t) = normalizeForSearch t) :
    normalizeForSearch (normalizeForSearch t) = normalizeForSearch t := by
  set s := normalizeForSearch t with hs
  by_cases hse : s = []
  · rw [hse]
    rfl
  · have h1 : s.isEmpty = false := by simp [hse]
    have ht : t ≠ [] := by
      intro he
      apply hse
      rw [hs, he]
      rfl
    have ht1 : t.isEmpty = false := by simp [ht]
    -- the image is produced by a collapse-then-trim tail, so white space
    -- in it is normalized
    have hsform : s = jsTrim (collapseWs
        ((((removeHamza (removeDiacritics (normalizeUyghur t))).map
            jsToLower).filter fun c => !searchPunct.contains c))) := by
      rw [hs]
      unfold normalizeForSearch
      rw [ht1]
      simp
    have hcoll : collapseWs s = s := by
      rw [hsform]
      exact collapseWs_of_jsTrim_collapseWs _
    have htrim : jsTrim s = s := by
      rw [hsform]
      unfold jsTrim
      exact congrArg trimFront
        (by
          have := jsTrim_idem (collapseWs
            ((((removeHamza (removeDiacritics (normalizeUyghur t))).map
                jsToLower).filter fun c => !searchPunct.contains c)))
          unfold jsTrim at this
          exact congrArg trimBack rfl) |>.trans
        (jsTrim_idem _)
    have hprops := fun c (hc : c ∈ s) => nfs_char_props (hs ▸ hc)
    have hnu : normalizeUyghur s = s := by
      unfold normalizeUyghur
      rw [h1]
      simp only [Bool.false_eq_true, if_false]
      rw [h, applyCharNorms_eq_self fun c hc => (hprops c hc).1, hcoll,
        htrim]
    have hrd : removeDiacritics s = s := by
      unfold removeDiacritics
      rw [h1]
      simp only [Bool.false_eq_true, if_false]
      refine List.filter_eq_self.mpr fun c hc => ?_
      rw [(hprops c hc).2.1]
      rfl
    have hrh : removeHamza s = s := by
      unfold removeHamza
      rw [h1]
      simp only [Bool.false_eq_true, if_false]
      refine List.filter_eq_self.mpr fun c hc => ?_
      rw [(hprops c hc).2.2.1]
      rfl
    have hmap : s.map jsToLower = s :=
      map_eq_self fun c hc => (hprops c hc).2.2.2.1
    have hfp : (s.filter fun c => !searchPunct.contains c) = s := by
      refine List.filter_eq_self.mpr fun c hc => ?_
      rw [(hprops c hc).2.2.2.2]
      rfl
    conv_lhs => rw [normalizeForSearch]
    rw [h1]
    simp only [Bool.false_eq_true, if_false]
    rw [hnu, hrd, hrh, hmap, hfp, hcoll, htrim]

/-- Witness for C7 (amended) at a concrete input. -/
theorem c7_normalizeForSearch_idempotent_witness :
    normalizeForSearch (normalizeForSearch ['H', 'E', 'L', 'L', 'O']) =
    normalizeForSearch ['H', 'E', 'L', 'L', 'O'] :=
  c7_normalizeForSearch_idempotent _ (by decide)

/-- Counterexample for C7 as stated: on `"e" + standalone hamza (U+0621) +
combining acute (U+0301)` the first pass removes the hamza and leaves the
decomposed pair `e + U+0301`, which the second pass's NFC composes to
`é`; the two passes disagree. -/
theorem c7_counterexample :
    normalizeForSearch (normalizeForSearch
      ['e', Char.ofNat 0x621, Char.ofNat 0x301]) ≠
    normalizeForSearch ['e', Char.ofNat 0x621, Char.ofNat 0x301] := by
  decide

theorem core_values_props :
    UYGHUR_ARABIC_TO_LATIN.all
      (fun kv => !kv.2.isEmpty &&
        kv.2.all (fun x => !isJsWs x && (jsToLower x == x))) = true := by
  decide

theorem core_keys_nonws :
    UYGHUR_ARABIC_TO_LATIN.all (fun kv => !isJsWs kv.1) = true := by
  decide

theorem core_value_shapes :
    UYGHUR_ARABIC_TO_LATIN.all
      (fun kv => kv.2.length == 1 || kv.2.length == 2) = true := by
  decide

theorem core_single_inverse :
    UYGHUR_ARABIC_TO_LATIN.all
      (fun kv =>
        match kv.2 with
        | [x] => seqLookup LATIN_TO_UYGHUR_ARABIC [x] == some kv.1
        | _ => true) = true := by
  decide

theorem core_digraph_inverse :
    UYGHUR_ARABIC_TO_LATIN.all
      (fun kv =>
        match kv.2 with
        | [x, y] => digraphArabic x y == some kv.1
        | _ => true) = true := by
  decide

theorem core_cross_safe :
    UYGHUR_ARABIC_TO_LATIN.all
      (fun kv =>
        match kv.2 with
        | [x] =>
          (' ' :: UYGHUR_ARABIC_TO_LATIN.map Prod.fst).all
            (fun e => badPair kv.1 e ||
              (digraphArabic x ((ulyOf e).headD ' ')).isNone)
        | _ => true) = true := by
  decide

theorem ulyOf_space : ulyOf ' ' = [' '] := by decide

theorem laStep_space : laStep ' ' = [' '] := by decide

theorem digraphArabic_space (d : Char) : digraphArabic ' ' d = none := by
  unfold digraphArabic
  rw [if_neg]
  intro hmem
  simp only [MULTI_CHAR_LATIN, List.mem_cons, List.mem_singleton,
    List.not_mem_nil, or_false] at hmem
  rcases hmem with h | h | h | h | h <;>
    (injection h with h1 h2; exact absurd h1 (by decide))

theorem scanLatin_single (c : Char) : scanLatin [c] = laStep c := rfl

theorem scanLatin_cons2_some {x y a : Char} {w : List Char}
    (h : digraphArabic x y = some a) :
    scanLatin (x :: y :: w) = a :: scanLatin w := by
  simp [scanLatin, h]

theorem scanLatin_cons2_none {x y : Char} {w : List Char}
    (h : digraphArabic x y = none) :
    scanLatin (x :: y :: w) = laStep x ++ scanLatin (y :: w) := by
  simp [scanLatin, h]

theorem ulyOf_eq_of_lookup {c : Char} {v : List Char}
    (hlk : tableLookup UYGHUR_ARABIC_TO_LATIN c = some v) : ulyOf c = v := by
  unfold ulyOf
  rw [hlk]

theorem ulyOf_ne_nil (c : Char) : ulyOf c ≠ [] := by
  cases hlk : tableLookup UYGHUR_ARABIC_TO_LATIN c with
  | some v =>
    rw [ulyOf_eq_of_lookup hlk]
    have hmem := tableLookup_mem hlk
    have := (List.all_eq_true.mp core_values_props) (c, v) hmem
    simp only [Bool.and_eq_true, Bool.not_eq_true'] at this
    intro he
    rw [he] at this
    simp at this
  | none =>
    have hev : ulyOf c = [' '] := by
      unfold ulyOf
      rw [hlk]
    rw [hev]
    simp

theorem ulyOf_domain_props {c : Char}
    (hc : isCoreLetter c = true ∨ c = ' ') :
    (isJsWs c = true ∧ ulyOf c = [' ']) ∨
    (isJsWs c = false ∧ ulyOf c ≠ [] ∧
      ∀ y ∈ ulyOf c, isJsWs y = false) := by
  rcases hc with hc | hc
  · right
    unfold isCoreLetter at hc
    rw [Option.isSome_iff_exists] at hc
    obtain ⟨v, hlk⟩ := hc
    have hmem := tableLookup_mem hlk
    have hkey := (List.all_eq_true.mp core_keys_nonws) (c, v) hmem
    have hval := (List.all_eq_true.mp core_values_props) (c, v) hmem
    simp only [Bool.and_eq_true, Bool.not_eq_true'] at hkey hval
    refine ⟨hkey, ulyOf_ne_nil c, fun y hy => ?_⟩
    rw [ulyOf_eq_of_lookup hlk] at hy
    have := (List.all_eq_true.mp hval.2) y hy
    simp only [Bool.and_eq_true, Bool.not_eq_true'] at this
    exact this.1
  · subst hc
    left
    exact ⟨by decide, ulyOf_space⟩

theorem ulyOf_lower_fixed {c : Char}
    (hc : isCoreLetter c = true ∨ c = ' ') :
    ∀ y ∈ ulyOf c, jsToLower y = y := by
  rcases hc with hc | hc
  · unfold isCoreLetter at hc
    rw [Option.isSome_iff_exists] at hc
    obtain ⟨v, hlk⟩ := hc
    have hmem := tableLookup_mem hlk
    have hval := (List.all_eq_true.mp core_values_props) (c, v) hmem
    simp only [Bool.and_eq_true, Bool.not_eq_true'] at hval
    intro y hy
    rw [ulyOf_eq_of_lookup hlk] at hy
    have := (List.all_eq_true.mp hval.2) y hy
    simp only [Bool.and_eq_true] at this
    exact eq_of_beq this.2
  · subst hc
    intro y hy
    rw [ulyOf_space] at hy
    have : y = ' ' := by simpa using hy
    subst this
    decide

theorem concatMap_eq_nil_imp {α β : Type} {f : α → List β} {l : List α}
    (h : concatMap f l = []) (hf : ∀ c, f c ≠ []) : l = [] := by
  cases l with
  | nil => rfl
  | cons a rest =>
    exfalso
    simp only [concatMap, List.append_eq_nil] at h
    exact hf a h.1

theorem scan_concatMap_ulyOf :
    ∀ u : List Char,
    (∀ c ∈ u, isCoreLetter c = true ∨ c = ' ') →
    List.Chain' (fun a b => badPair a b = false) u →
    scanLatin (concatMap ulyOf u) = u := by
  intro u
  induction u with
  | nil =>
    intro _ _
    rfl
  | cons c rest ih =>
    intro hall hch
    have hallr : ∀ d ∈ rest, isCoreLetter d = true ∨ d = ' ' :=
      fun d hd => hall d (List.mem_cons_of_mem _ hd)
    have hchr : List.Chain' (fun a b => badPair a b = false) rest := hch.tail
    have ihr := ih hallr hchr
    rcases hall c (List.mem_cons_self _ _) with hcore | hspace
    · -- c is a core letter
      unfold isCoreLetter at hcore
      rw [Option.isSome_iff_exists] at hcore
      obtain ⟨v, hlk⟩ := hcore
      have hmem := tableLookup_mem hlk
      have hshape := (List.all_eq_true.mp core_value_shapes) (c, v) hmem
      match v, hshape with
      | [x], _ =>
        -- single-character Latin image
        have hsingle : (seqLookup LATIN_TO_UYGHUR_ARABIC [x] == some c)
            = true :=
          (List.all_eq_true.mp core_single_inverse) (c, [x]) hmem
        have hstep : laStep x = [c] := by
          unfold laStep
          rw [eq_of_beq hsingle]
        cases rest with
        | nil =>
          show scanLatin (concatMap ulyOf [c]) = [c]
          simp only [concatMap, ulyOf_eq_of_lookup hlk, List.append_nil]
          rw [scanLatin_single, hstep]
        | cons e rest2 =>
          have hedom := hallr e (List.mem_cons_self _ _)
          obtain ⟨z, zs, hez⟩ : ∃ z zs, ulyOf e = z :: zs := by
            cases hu : ulyOf e with
            | nil => exact absurd hu (ulyOf_ne_nil e)
            | cons z zs => exact ⟨z, zs, rfl⟩
          have hbad : badPair c e = false := by
            have hhead := (List.chain'_cons'.mp hch).1
            exact hhead e rfl
          have hemem : e ∈ ' ' :: UYGHUR_ARABIC_TO_LATIN.map Prod.fst := by
            rcases hedom with he | he
            · unfold isCoreLetter at he
              rw [Option.isSome_iff_exists] at he
              obtain ⟨w2, hlk2⟩ := he
              exact List.mem_cons_of_mem _
                (List.mem_map_of_mem Prod.fst (tableLookup_mem hlk2))
            · subst he
              exact List.mem_cons_self _ _
          have hcross := (List.all_eq_true.mp core_cross_safe) (c, [x]) hmem
          have hinner := (List.all_eq_true.mp hcross) e hemem
          rw [Bool.or_eq_true] at hinner
          rcases hinner with hb | hb
          · rw [hbad] at hb
            cases hb
          · have hdig0 : digraphArabic x ((ulyOf e).headD ' ') = none :=
              Option.eq_none_of_isNone hb
            rw [hez] at hdig0
            simp only [List.headD_cons] at hdig0
            show scanLatin (concatMap ulyOf (c :: e :: rest2)) =
              c :: e :: rest2
            have hlist : concatMap ulyOf (c :: e :: rest2) =
                x :: z :: (zs ++ concatMap ulyOf rest2) := by
              simp only [concatMap, ulyOf_eq_of_lookup hlk, hez,
                List.cons_append, List.nil_append]
            rw [hlist, scanLatin_cons2_none hdig0, hstep]
            have hck : z :: (zs ++ concatMap ulyOf rest2) =
                concatMap ulyOf (e :: rest2) := by
              simp only [concatMap, hez, List.cons_append]
            rw [hck, ihr, List.singleton_append]
      | [x, y], _ =>
        -- digraph Latin image
        have hdg : (digraphArabic x y == some c) = true :=
          (List.all_eq_true.mp core_digraph_inverse) (c, [x, y]) hmem
        have hdig : digraphArabic x y = some c := eq_of_beq hdg
        have hlist : concatMap ulyOf (c :: rest) =
            x :: y :: concatMap ulyOf rest := by
          simp only [concatMap, ulyOf_eq_of_lookup hlk, List.cons_append,
            List.nil_append]
        rw [hlist, scanLatin_cons2_some hdig, ihr]
    · -- c is a space
      subst hspace
      cases rest with
      | nil =>
        show scanLatin (concatMap ulyOf [' ']) = [' ']
        simp only [concatMap, ulyOf_space, List.append_nil]
        rw [scanLatin_single, laStep_space]
      | cons e rest2 =>
        obtain ⟨z, zs, hez⟩ : ∃ z zs, ulyOf e = z :: zs := by
          cases hu : ulyOf e with
          | nil => exact absurd hu (ulyOf_ne_nil e)
          | cons z zs => exact ⟨z, zs, rfl⟩
        have hlist : concatMap ulyOf (' ' :: e :: rest2) =
            ' ' :: z :: (zs ++ concatMap ulyOf rest2) := by
          simp only [concatMap, ulyOf_space, hez, List.cons_append,
            List.nil_append]
        rw [hlist, scanLatin_cons2_none (digraphArabic_space z), laStep_space]
        have hck : z :: (zs ++ concatMap ulyOf rest2) =
            concatMap ulyOf (e :: rest2) := by
          simp only [concatMap, hez, List.cons_append]
        rw [hck, ihr, List.singleton_append]

theorem trimFront_cons_pos {a : Char} {l : List Char}
    (h : isJsWs a = true) : trimFront (a :: l) = trimFront l := by
  unfold trimFront
  rw [List.dropWhile_cons_of_pos h]

theorem trimFront_cons_neg {a : Char} {l : List Char}
    (h : isJsWs a = false) : trimFront (a :: l) = a :: l := by
  unfold trimFront
  rw [List.dropWhile_cons_of_neg (by simp [h])]

theorem collapseWsWith_cons2_both {r a b : Char} {l : List Char}
    (ha : isJsWs a = true) (hb : isJsWs b = true) :
    collapseWsWith r (a :: b :: l) = collapseWsWith r (b :: l) := by
  simp [collapseWsWith, ha, hb]

theorem collapseWsWith_cons2_wsfirst {r a b : Char} {l : List Char}
    (ha : isJsWs a = true) (hb : isJsWs b = false) :
    collapseWsWith r (a :: b :: l) = r :: collapseWsWith r (b :: l) := by
  simp [collapseWsWith, ha, hb]

theorem collapseWsWith_single_ws {r c : Char} (h : isJsWs c = true) :
    collapseWsWith r [c] = [r] := by
  simp [collapseWsWith, h]

theorem collapseWsWith_single_nonws {r c : Char} (h : isJsWs c = false) :
    collapseWsWith r [c] = [c] := by
  simp [collapseWsWith, h]

theorem trimFront_concatMap {f : Char → List Char} :
    ∀ {t : List Char},
    (∀ c ∈ t, (isJsWs c = true ∧ f c = [' ']) ∨
      (isJsWs c = false ∧ f c ≠ [] ∧ ∀ y ∈ f c, isJsWs y = false)) →
    trimFront (concatMap f t) = concatMap f (trimFront t) := by
  intro t
  induction t with
  | nil =>
    intro _
    rfl
  | cons c rest ih =>
    intro hf
    have hfr := fun d hd => hf d (List.mem_cons_of_mem _ hd)
    rcases hf c (List.mem_cons_self _ _) with ⟨hws, hfc⟩ | ⟨hnw, hne, hall⟩
    · have h1 : concatMap f (c :: rest) = ' ' :: concatMap f rest := by
        simp only [concatMap, hfc, List.singleton_append]
      rw [h1, trimFront_cons_pos (by decide), trimFront_cons_pos hws]
      exact ih hfr
    · obtain ⟨z, zs, hzz⟩ : ∃ z zs, f c = z :: zs := by
        cases hu : f c with
        | nil => exact absurd hu hne
        | cons z zs => exact ⟨z, zs, rfl⟩
      have hz : isJsWs z = false :=
        hall z (by rw [hzz]; exact List.mem_cons_self _ _)
      have h1 : concatMap f (c :: rest) = z :: (zs ++ concatMap f rest) := by
        simp only [concatMap, hzz, List.cons_append]
      rw [h1, trimFront_cons_neg hz, trimFront_cons_neg hnw, ← h1]

theorem trimBack_concatMap {f : Char → List Char} {t : List Char}
    (hf : ∀ c ∈ t, (isJsWs c = true ∧ f c = [' ']) ∨
      (isJsWs c = false ∧ f c ≠ [] ∧ ∀ y ∈ f c, isJsWs y = false)) :
    trimBack (concatMap f t) = concatMap f (trimBack t) := by
  have hg : ∀ c ∈ t.reverse,
      (isJsWs c = true ∧ (f c).reverse = [' ']) ∨
      (isJsWs c = false ∧ (f c).reverse ≠ [] ∧
        ∀ y ∈ (f c).reverse, isJsWs y = false) := by
    intro c hc
    rcases hf c (List.mem_reverse.mp hc) with ⟨h1, h2⟩ | ⟨h1, h2, h3⟩
    · left
      rw [h2]
      exact ⟨h1, rfl⟩
    · right
      refine ⟨h1, by simpa using h2, fun y hy => h3 y (List.mem_reverse.mp hy)⟩
  show ((concatMap f t).reverse.dropWhile isJsWs).reverse = _
  rw [reverse_concatMap]
  have h2 := trimFront_concatMap (f := fun c => (f c).reverse) hg
  unfold trimFront at h2
  rw [h2, reverse_concatMap]
  rw [concatMap_congr fun c _ => List.reverse_reverse (f c)]
  rfl

theorem collapseWs_concatMap {f : Char → List Char}
    (hsp : f ' ' = [' ']) :
    ∀ {t : List Char},
    (∀ c ∈ t, (isJsWs c = true ∧ f c = [' ']) ∨
      (isJsWs c = false ∧ f c ≠ [] ∧ ∀ y ∈ f c, isJsWs y = false)) →
    collapseWs (concatMap f t) = concatMap f (collapseWs t) := by
  intro t
  induction t with
  | nil =>
    intro _
    rfl
  | cons a rest ih =>
    intro hf
    have hfr := fun d hd => hf d (List.mem_cons_of_mem _ hd)
    rcases hf a (List.mem_cons_self _ _) with ⟨hwa, hfa⟩ | ⟨hna, hnea, halla⟩
    · -- a maps to a single space
      cases rest with
      | nil =>
        have h1 : concatMap f [a] = [' '] := by
          simp only [concatMap, hfa, List.append_nil]
        have h2 : collapseWs [a] = [' '] :=
          collapseWsWith_single_ws hwa
        rw [h1, h2]
        show collapseWs [' '] = concatMap f [' ']
        simp only [concatMap, hsp, List.append_nil]
        decide
      | cons b rest2 =>
        rcases hf b (List.mem_cons_of_mem _ (List.mem_cons_self _ _)) with
          ⟨hwb, hfb⟩ | ⟨hnb, hneb, hallb⟩
        · -- b also white space: input run collapses
          have h1 : concatMap f (a :: b :: rest2) =
              ' ' :: concatMap f (b :: rest2) := by
            simp only [concatMap, hfa, List.singleton_append, List.nil_append]
          have h1b : concatMap f (b :: rest2) =
              ' ' :: concatMap f rest2 := by
            simp only [concatMap, hfb, List.singleton_append, List.nil_append]
          have h2 : collapseWs (a :: b :: rest2) =
              collapseWs (b :: rest2) :=
            collapseWsWith_cons2_both hwa hwb
          rw [h1, h1b, h2]
          have h3 : collapseWs (' ' :: ' ' :: concatMap f rest2) =
              collapseWs (' ' :: concatMap f rest2) :=
            collapseWsWith_cons2_both (by decide) (by decide)
          rw [h3, ← h1b]
          exact ih hfr
        · -- b not white space
          obtain ⟨zb, zsb, hzb⟩ : ∃ z zs, f b = z :: zs := by
            cases hu : f b with
            | nil => exact absurd hu hneb
            | cons z zs => exact ⟨z, zs, rfl⟩
          have hznb : isJsWs zb = false :=
            hallb zb (by rw [hzb]; exact List.mem_cons_self _ _)
          have h1 : concatMap f (a :: b :: rest2) =
              ' ' :: zb :: (zsb ++ concatMap f rest2) := by
            simp only [concatMap, hfa, hzb, List.singleton_append,
              List.cons_append, List.nil_append]
          have hbx : concatMap f (b :: rest2) =
              zb :: (zsb ++ concatMap f rest2) := by
            simp only [concatMap, hzb, List.cons_append]
          have h2 : collapseWs (' ' :: zb :: (zsb ++ concatMap f rest2)) =
              ' ' :: collapseWs (zb :: (zsb ++ concatMap f rest2)) :=
            collapseWsWith_cons2_wsfirst (by decide) hznb
          have h3 : collapseWs (a :: b :: rest2) =
              ' ' :: collapseWs (b :: rest2) :=
            collapseWsWith_cons2_wsfirst hwa hnb
          rw [h1, h2, ← hbx, ih hfr, h3]
          simp only [concatMap, hsp, List.singleton_append]
    · -- a maps to a nonempty white-space-free string
      cases rest with
      | nil =>
        have h1 : concatMap f [a] = f a ++ [] := by
          simp only [concatMap]
        have h2 : collapseWs [a] = [a] :=
          collapseWsWith_single_nonws hna
        have h4 : collapseWs (f a ++ []) = f a ++ collapseWs [] :=
          collapseWsWith_append_nonws halla
        rw [h1, h2, h4]
        simp only [concatMap]
        rfl
      | cons b rest2 =>
        have h1 : concatMap f (a :: b :: rest2) =
            f a ++ concatMap f (b :: rest2) := by
          simp only [concatMap]
        have h3 : collapseWs (a :: b :: rest2) =
            a :: collapseWs (b :: rest2) :=
          collapseWsWith_cons_nonws hna
        have h4 : collapseWs (f a ++ concatMap f (b :: rest2)) =
            f a ++ collapseWs (concatMap f (b :: rest2)) :=
          collapseWsWith_append_nonws halla
        rw [h1, h4, ih hfr, h3]
        simp only [concatMap]

theorem chain'_collapseWs_pres {R : Char → Char → Prop}
    (hws1 : ∀ a b, isJsWs a = true → R a b)
    (hws2 : ∀ a b, isJsWs b = true → R a b) :
    ∀ {l : List Char}, List.Chain' R l → List.Chain' R (collapseWs l) := by
  intro l
  induction l with
  | nil =>
    intro _
    simp [collapseWs, collapseWsWith]
  | cons a rest ih =>
    intro h
    cases rest with
    | nil =>
      by_cases hwa : isJsWs a <;>
        simp [collapseWs, collapseWsWith, hwa]
    | cons b rest2 =>
      by_cases hwa : isJsWs a
      · by_cases hwb : isJsWs b
        · rw [show collapseWs (a :: b :: rest2) = collapseWs (b :: rest2)
            from collapseWsWith_cons2_both hwa hwb]
          exact ih h.tail
        · rw [show collapseWs (a :: b :: rest2) =
              ' ' :: collapseWs (b :: rest2)
            from collapseWsWith_cons2_wsfirst hwa (by simpa using hwb)]
          refine List.chain'_cons'.mpr ⟨fun y _ => hws1 ' ' y (by decide),
            ih h.tail⟩
      · rw [show collapseWs (a :: b :: rest2) =
            a :: collapseWs (b :: rest2)
          from collapseWsWith_cons_nonws (by simpa using hwa)]
        refine List.chain'_cons'.mpr ⟨?_, ih h.tail⟩
        intro y hy
        unfold collapseWs at hy
        rw [collapseWsWith_head] at hy
        simp only [Option.mem_def, Option.some.injEq] at hy
        subst hy
        by_cases hwb : isJsWs b
        · rw [if_pos hwb]
          exact hws2 a ' ' (by decide)
        · rw [if_neg hwb]
          exact (List.chain'_cons.mp h).1

theorem beq_false_of_ws {a : Char} (x : Char) (hx : isJsWs x = false)
    (h : isJsWs a = true) : (a == x) = false := by
  rcases Bool.eq_false_or_eq_true (a == x) with hb | hb
  · have he := eq_of_beq hb
    subst he
    rw [h] at hx
    cases hx
  · exact hb

theorem badPair_ws_left {a : Char} (b : Char) (h : isJsWs a = true) :
    badPair a b = false := by
  unfold badPair
  rw [beq_false_of_ws 'ز' (by decide) h, beq_false_of_ws 'س' (by decide) h,
    beq_false_of_ws 'گ' (by decide) h, beq_false_of_ws 'ن' (by decide) h]
  simp

theorem badPair_ws_right (a : Char) {b : Char} (h : isJsWs b = true) :
    badPair a b = false := by
  unfold badPair
  rw [beq_false_of_ws 'ھ' (by decide) h, beq_false_of_ws 'گ' (by decide) h,
    beq_false_of_ws 'غ' (by decide) h]
  simp

/-- C1 (amended): for text of core Uyghur Arabic letters and spaces in
which no two adjacent letters form one of the five digraph-colliding
pairs (ز+ھ, س+ھ, گ+ھ, ن+گ, ن+غ, whose Latin images concatenate into
z+h, s+h, g+h, n+g, n+gh), `latinToArabic (arabicToLatin t)` reproduces
`t` up to whitespace normalization. -/
theorem c1_core_roundtrip (t : List Char)
    (h1 : ∀ c ∈ t, isCoreLetter c = true ∨ c = ' ')
    (h2 : List.Chain' (fun a b => badPair a b = false) t) :
    toArabic (toULY t) = normWs t := by
  by_cases ht : t = []
  · subst ht
    rfl
  · have ht1 : t.isEmpty = false := by simp [ht]
    have bundle : ∀ m : List Char,
        (∀ c ∈ m, isCoreLetter c = true ∨ c = ' ') →
        ∀ c ∈ m, (isJsWs c = true ∧ ulyOf c = [' ']) ∨
          (isJsWs c = false ∧ ulyOf c ≠ [] ∧
            ∀ y ∈ ulyOf c, isJsWs y = false) :=
      fun _ hm c hc => ulyOf_domain_props (hm c hc)
    have hstep1 : concatMap ulyStep t = concatMap ulyOf t := by
      apply concatMap_congr
      intro c hc
      rcases h1 c hc with hcore | hsp
      · unfold isCoreLetter at hcore
        rw [Option.isSome_iff_exists] at hcore
        obtain ⟨v, hlk⟩ := hcore
        have hcomp : tableLookup COMPLETE_ARABIC_TO_LATIN c = some v := by
          unfold COMPLETE_ARABIC_TO_LATIN
          exact tableLookup_append_left (tableLookup_append_left
            (tableLookup_append_left (tableLookup_append_left hlk)))
        unfold ulyStep
        rw [hcomp, ulyOf_eq_of_lookup hlk]
      · subst hsp
        decide
    have hdom2 : ∀ c ∈ collapseWs t, isCoreLetter c = true ∨ c = ' ' := by
      intro c hc
      unfold collapseWs at hc
      rcases mem_collapseWsWith hc with hspc | ⟨hcm, _⟩
      · right
        exact hspc
      · exact h1 c hcm
    have hdom3 : ∀ c ∈ trimBack (collapseWs t),
        isCoreLetter c = true ∨ c = ' ' :=
      fun c hc => hdom2 c (mem_trimBack hc)
    have hdomu : ∀ c ∈ normWs t, isCoreLetter c = true ∨ c = ' ' := by
      intro c hc
      unfold normWs at hc
      exact hdom2 c (mem_jsTrim hc)
    have huly : toULY t = concatMap ulyOf (normWs t) := by
      unfold toULY
      rw [ht1]
      simp only [Bool.false_eq_true, if_false]
      rw [hstep1, collapseWs_concatMap ulyOf_space (bundle t h1)]
      unfold jsTrim
      rw [trimBack_concatMap (bundle _ hdom2),
        trimFront_concatMap (bundle _ hdom3)]
      rfl
    have hchainu : List.Chain' (fun a b => badPair a b = false) (normWs t) := by
      unfold normWs
      apply chain'_jsTrim
      exact chain'_collapseWs_pres
        (fun a b ha => badPair_ws_left b ha)
        (fun a b hb => badPair_ws_right a hb) h2
    by_cases hu0 : toULY t = []
    · have hn0 : normWs t = [] := by
        rw [huly] at hu0
        exact concatMap_eq_nil_imp hu0 ulyOf_ne_nil
      rw [hu0, hn0]
      rfl
    · have htu : (toULY t).isEmpty = false := by simp [hu0]
      unfold toArabic
      rw [htu]
      simp only [Bool.false_eq_true, if_false]
      have hlow : (concatMap ulyOf (normWs t)).map jsToLower =
          concatMap ulyOf (normWs t) := by
        refine map_eq_self fun c hc => ?_
        obtain ⟨d, hd, hcd⟩ := mem_concatMap.mp hc
        exact ulyOf_lower_fixed (hdomu d hd) c hcd
      rw [huly, hlow, scan_concatMap_ulyOf (normWs t) hdomu hchainu]
      unfold normWs
      exact jsTrim_idem _

/-- Witness for C1 (amended) at a concrete input: the phrase
`سالام دۇنيا` round-trips through `toULY` and `toArabic`. -/
theorem c1_core_roundtrip_witness :
    toArabic (toULY ['س', 'ا', 'ل', 'ا', 'م', ' ', 'د', 'ۇ', 'ن', 'ي', 'ا']) =
    normWs ['س', 'ا', 'ل', 'ا', 'م', ' ', 'د', 'ۇ', 'ن', 'ي', 'ا'] :=
  c1_core_roundtrip _ (by decide)
    (by repeat
          first
          | exact List.chain'_singleton _
          | refine List.chain'_cons.mpr ⟨by decide, ?_⟩)

/-- Counterexample for C1 as stated: the two-letter core text `نگ`
(noon + gaf) transliterates to `ng`, which the Latin-side scan reads back
as the single letter `ڭ`, not as the original two letters. -/
theorem c1_counterexample :
    (['ن', 'گ'].all fun c => isCoreLetter c) = true ∧
    toArabic (toULY ['ن', 'گ']) = ['ڭ'] ∧
    normWs ['ن', 'گ'] = ['ن', 'گ'] ∧
    toArabic (toULY ['ن', 'گ']) ≠ normWs ['ن', 'گ'] := by
  refine ⟨by decide, by decide, by decide, by decide⟩
